import Mathlib

/-!
# ezff: a command-line front end that plans ffmpeg trimming commands

Shallow embedding of `main.go`.

* Go strings are modelled as lists of characters (`GoString`).  The path
  routines only inspect the ASCII bytes `/` and `.`, which never occur inside
  a multi-byte UTF-8 sequence, so working on characters instead of bytes does
  not change their result on UTF-8 text.
* The Go standard-library routines that `main.go` calls (`filepath.Dir`,
  `filepath.Base`, `filepath.Ext`, `filepath.Clean`, `filepath.Join`,
  `strings.TrimSuffix`, `strings.TrimSpace`, the `%d` verb) are embedded from
  their Unix implementations.
* `float64`, `strconv.ParseFloat` and the `%f` verb are a parameter of `main`
  (`Float64Ops`).  `ieee754 parse` implements it with IEEE 754 binary64
  arithmetic (`F64`, round to nearest, ties to even) and the `%f` verb of `fmt`
  (`fmtF64`); `strconv.ParseFloat` stays its parameter `parse`.
* The outside world (the `ffmpeg` and `ffprobe` binaries and the filesystem) is
  a parameter (`World`); what the program does to it is recorded as a trace of
  `Event`s.
-/

namespace Ezff

/-- A Go string. -/
abbrev GoString := List Char

/-! ## `path/filepath` (Unix) and `strings` -/

/-- Go `os.IsPathSeparator` on Unix: `c == '/'`. -/
def isSep (c : Char) : Bool := c == '/'

/-- The negation of `isSep`, as used by the loops `for ... && !os.IsPathSeparator(path[i])`. -/
def notSep (c : Char) : Bool := !isSep c

/-- The inner loop of the `..` case of `filepath.Clean`, entered after `out.w--`:
`for out.w > dotdot && !os.IsPathSeparator(out.index(out.w)) { out.w-- }`.
The argument is the current `out.w`; the result is its final value. -/
def backtrackTo (buf : List Char) (dotdot : Nat) : Nat → Nat
  | 0 => 0
  | w + 1 =>
    if w + 1 > dotdot && !isSep (buf.getD (w + 1) '/') then backtrackTo buf dotdot w
    else w + 1

/-- The main loop `for r < n { switch { ... } }` of `filepath.Clean`.
`path` is the unread part `path[r:]`, `out` the bytes written so far
(`out.w = out.length`), `dotdot` the index where `..` must stop.  Every
iteration reads at least one byte, so `fuel = len(path)` iterations suffice. -/
def cleanLoop (rooted : Bool) : Nat → List Char → List Char → Nat → List Char
  | 0, _, out, _ => out
  | fuel + 1, path, out, dotdot =>
    match path with
    | [] => out
    | c :: rest =>
      if isSep c then
        -- empty path element
        cleanLoop rooted fuel rest out dotdot
      else if c == '.' && (rest.isEmpty || isSep (rest.headD '/')) then
        -- . element
        cleanLoop rooted fuel rest out dotdot
      else if c == '.' && rest.headD '/' == '.'
          && (rest.tail.isEmpty || isSep (rest.tail.headD '/')) then
        -- .. element: remove to last separator
        if out.length > dotdot then
          -- can backtrack
          cleanLoop rooted fuel rest.tail
            (out.take (backtrackTo out dotdot (out.length - 1))) dotdot
        else if !rooted then
          -- cannot backtrack, but not rooted, so append .. element
          let out1 := (if out.length > 0 then out ++ ['/'] else out) ++ ['.', '.']
          cleanLoop rooted fuel rest.tail out1 out1.length
        else
          cleanLoop rooted fuel rest.tail out dotdot
      else
        -- real path element: add slash if needed, then copy the element
        let out1 :=
          if (rooted && out.length != 1) || (!rooted && out.length != 0) then out ++ ['/']
          else out
        cleanLoop rooted fuel ((c :: rest).dropWhile notSep)
          (out1 ++ (c :: rest).takeWhile notSep) dotdot

/-- Go `filepath.Clean` on Unix (no volume name, `FromSlash` is the identity). -/
def Clean (path : GoString) : GoString :=
  match path with
  | [] => ['.']
  | c :: rest =>
    let rooted := isSep c
    let out :=
      if rooted then cleanLoop true path.length rest ['/'] 1
      else cleanLoop false path.length path [] 0
    -- Turn empty string into "."
    if out.isEmpty then ['.'] else out

/-- Go `filepath.Dir` on Unix: `Clean` of the path up to and including the last separator. -/
def Dir (path : GoString) : GoString :=
  Clean (path.rdropWhile notSep)

/-- Go `filepath.Base` on Unix. -/
def Base (path : GoString) : GoString :=
  if path.isEmpty then ['.']
  else
    -- Strip trailing slashes, then find the last element.
    let last := (path.rdropWhile isSep).rtakeWhile notSep
    -- If empty now, it had only slashes.
    if last.isEmpty then ['/'] else last

/-- The loop of Go `filepath.Ext`, scanning the path from its end: `rev` is the
reversed unscanned prefix and `acc` the bytes after the scanned position. -/
def extScan : List Char → List Char → List Char
  | [], _ => []
  | c :: rev, acc =>
    if isSep c then []
    else if c == '.' then c :: acc
    else extScan rev (c :: acc)

/-- Go `filepath.Ext`: the suffix beginning at the final dot of the final element, or empty. -/
def Ext (path : GoString) : GoString := extScan path.reverse []

/-- Go `filepath.Join` of two elements on Unix: empty elements are ignored and
the result is cleaned; the result is empty when both elements are empty. -/
def Join (a b : GoString) : GoString :=
  if !a.isEmpty then Clean (a ++ '/' :: b)
  else if !b.isEmpty then Clean b
  else []

/-- Go `strings.TrimSuffix`. -/
def TrimSuffix (s suffix : GoString) : GoString :=
  if suffix.isSuffixOf s then s.take (s.length - suffix.length) else s

/-- Go `unicode.IsSpace`. -/
def isSpace (c : Char) : Bool :=
  let n := c.toNat
  (9 ≤ n && n ≤ 13) || n == 32 || n == 0x85 || n == 0xA0 || n == 0x1680
    || (0x2000 ≤ n && n ≤ 0x200A) || n == 0x2028 || n == 0x2029 || n == 0x202F
    || n == 0x205F || n == 0x3000

/-- Go `strings.TrimSpace`. -/
def TrimSpace (s : GoString) : GoString := (s.dropWhile isSpace).rdropWhile isSpace

/-- The `%d` verb for an `int`. -/
def fmtInt (i : Int) : GoString :=
  if i < 0 then '-' :: Nat.toDigits 10 i.natAbs else Nat.toDigits 10 i.natAbs

/-- The value of a Go `int` (two's complement, 64 bits as on every 64-bit
platform) holding the mathematical result `x` of an arithmetic operation. -/
def wrapInt64 (x : Int) : Int :=
  (x + 9223372036854775808) % 18446744073709551616 - 9223372036854775808

/-! ## `float64`, `strconv.ParseFloat` and the `%f` verb -/

/-- The `float64` operations `main.go` uses, with the two order laws of IEEE 754
comparisons that relate `<` to `<=` and `>=` (all comparisons with NaN are
false, so `lt a b` excludes both `b <= a` and `a >= b`). -/
structure Float64Ops where
  /-- The type `float64`. -/
  F : Type
  /-- Go `strconv.ParseFloat(s, 64)`: the value, or the error. -/
  parseFloat : GoString → Except GoString F
  /-- Go `fmt.Sprintf("%f", x)`. -/
  fmtF : F → GoString
  /-- Go `x + y`. -/
  add : F → F → F
  /-- Go `x - y`. -/
  sub : F → F → F
  /-- Go `x <= y`. -/
  le : F → F → Bool
  /-- Go `x >= y`. -/
  ge : F → F → Bool
  /-- Go `x < y`. -/
  lt : F → F → Bool
  /-- When `a < b`, the comparison `b <= a` is false. -/
  lt_not_le : ∀ a b, lt a b = true → le b a = false
  /-- When `a < b`, the comparison `a >= b` is false. -/
  lt_not_ge : ∀ a b, lt a b = true → ge a b = false

/-! ## IEEE 754 binary64 -/

/-- The loop `for n != 0 { n >>= 1; len++ }`, which ends within `fuel = n` iterations. -/
def bitLengthAux : Nat → Nat → Nat → Nat
  | 0, _, len => len
  | fuel + 1, n, len => if n = 0 then len else bitLengthAux fuel (n / 2) (len + 1)

/-- The number of bits of `n` (0 for 0). -/
def bitLength (n : Nat) : Nat := bitLengthAux n n 0

/-- A `float64`: NaN, an infinity, or the finite value `(-1)^neg * m * 2^e`.
The values of `float64` are those with `m < 2^53` and `-1074 ≤ e ≤ 971`; the
operations below compute with the value and return such a representation. -/
inductive F64 where
  | nan
  | inf (neg : Bool)
  | fin (neg : Bool) (m : Nat) (e : Int)
  deriving DecidableEq, Repr

/-- Rounds the exact value `(-1)^neg * m * 2^e`, `m ≠ 0`, to the nearest
`float64`, ties to even: the unit in the last place is `2^q`, 53 bits below the
leading bit but not below `2^-1074`; a rounded value of `2^1024` or more
overflows to an infinity. -/
def round64 (neg : Bool) (m : Nat) (e : Int) : F64 :=
  let q : Int := max (e + bitLength m - 53) (-1074)
  let m1 : Nat :=
    if q ≤ e then m * 2 ^ (e - q).toNat
    else
      let sh := (q - e).toNat
      let quo := m / 2 ^ sh
      let rem := m % 2 ^ sh
      let half := 2 ^ (sh - 1)
      if rem > half || (rem == half && quo % 2 == 1) then quo + 1 else quo
  if bitLength m1 + q > 1024 then F64.inf neg else F64.fin neg m1 q

/-- The integer `(-1)^neg * m * 2^(e - base)`, for `base ≤ e`. -/
def scaled (neg : Bool) (m : Nat) (e base : Int) : Int :=
  if neg then -((m * 2 ^ (e - base).toNat : Nat) : Int)
  else ((m * 2 ^ (e - base).toNat : Nat) : Int)

/-- Go `-x` on `float64`. -/
def F64.neg : F64 → F64
  | F64.nan => F64.nan
  | F64.inf n => F64.inf (!n)
  | F64.fin n m e => F64.fin (!n) m e

/-- Go `x + y` on `float64`: the exact sum, rounded; an exact zero sum is `-0`
only when both terms are negative. -/
def F64.add : F64 → F64 → F64
  | F64.nan, _ => F64.nan
  | _, F64.nan => F64.nan
  | F64.inf a, F64.inf b => if a == b then F64.inf a else F64.nan
  | F64.inf a, F64.fin _ _ _ => F64.inf a
  | F64.fin _ _ _, F64.inf b => F64.inf b
  | F64.fin n1 m1 e1, F64.fin n2 m2 e2 =>
    let z := scaled n1 m1 e1 (min e1 e2) + scaled n2 m2 e2 (min e1 e2)
    if z = 0 then F64.fin (n1 && n2) 0 0
    else round64 (decide (z < 0)) z.natAbs (min e1 e2)

/-- Go `x - y` on `float64`. -/
def F64.sub (x y : F64) : F64 := F64.add x (F64.neg y)

/-- Go `x < y` on `float64`: false when an operand is NaN. -/
def F64.lt : F64 → F64 → Bool
  | F64.nan, _ => false
  | _, F64.nan => false
  | F64.inf a, F64.inf b => a && !b
  | F64.inf a, F64.fin _ _ _ => a
  | F64.fin _ _ _, F64.inf b => !b
  | F64.fin n1 m1 e1, F64.fin n2 m2 e2 =>
    decide (scaled n1 m1 e1 (min e1 e2) < scaled n2 m2 e2 (min e1 e2))

/-- Go `x <= y` on `float64`: false when an operand is NaN. -/
def F64.le : F64 → F64 → Bool
  | F64.nan, _ => false
  | _, F64.nan => false
  | F64.inf a, F64.inf b => a || !b
  | F64.inf a, F64.fin _ _ _ => a
  | F64.fin _ _ _, F64.inf b => !b
  | F64.fin n1 m1 e1, F64.fin n2 m2 e2 =>
    decide (scaled n1 m1 e1 (min e1 e2) ≤ scaled n2 m2 e2 (min e1 e2))

/-- Go `x >= y` on `float64`, which is `y <= x`. -/
def F64.ge (x y : F64) : Bool := F64.le y x

/-- The value is neither NaN nor an infinity. -/
def F64.isFinite : F64 → Bool
  | F64.fin _ _ _ => true
  | _ => false

/-- The value `m * 2^e * 10^6` rounded to the nearest integer, ties to even:
the decimal digits that `%f` prints, without the point. -/
def microUnits (m : Nat) (e : Int) : Nat :=
  if 0 ≤ e then m * 2 ^ e.toNat * 1000000
  else
    let den := 2 ^ (-e).toNat
    let quo := m * 1000000 / den
    let rem := m * 1000000 % den
    if 2 * rem > den || (2 * rem == den && quo % 2 == 1) then quo + 1 else quo

/-- The six decimal digits of `k mod 10^6`. -/
def sixDigits (k : Nat) : List Char :=
  [100000, 10000, 1000, 100, 10, 1].map fun p => Nat.digitChar (k / p % 10)

/-- Go `fmt.Sprintf("%f", x)`: `NaN`, `+Inf`, `-Inf`, or the sign, the integer
part and six decimals of the exactly rounded value. -/
def fmtF64 : F64 → GoString
  | F64.nan => "NaN".toList
  | F64.inf false => "+Inf".toList
  | F64.inf true => "-Inf".toList
  | F64.fin neg m e =>
    (if neg then ['-'] else []) ++ Nat.toDigits 10 (microUnits m e / 1000000)
      ++ '.' :: sixDigits (microUnits m e)

/-- The implementation of `Float64Ops` by IEEE 754 binary64 arithmetic and the
`%f` verb, for a given `strconv.ParseFloat`. -/
def ieee754 (parse : GoString → Except GoString F64) : Float64Ops where
  F := F64
  parseFloat := parse
  fmtF := fmtF64
  add := F64.add
  sub := F64.sub
  le := F64.le
  ge := F64.ge
  lt := F64.lt
  lt_not_le a b := by
    cases a <;> cases b <;> simp [F64.lt, F64.le]
    · intro h1 h2; simp [h1, h2]
    · intro h
      rw [min_comm]
      exact h
  lt_not_ge a b := by
    cases a <;> cases b <;> simp [F64.lt, F64.ge, F64.le]
    · intro h1 h2; simp [h1, h2]
    · intro h
      rw [min_comm]
      exact h

/-! ## The outside world and what the program does to it -/

/-- The answers of the outside world to the program's requests.  They do not
change while the program runs (no concurrent writers). -/
structure World where
  /-- `exec.Command(name, args...).Run()`: `none` for a nil error, else the error's text. -/
  run : GoString → List GoString → Option GoString
  /-- `exec.Command(name, args...).Output()`: the standard output, or the error's text. -/
  output : GoString → List GoString → Except GoString GoString
  /-- `os.Stat(path)` does not fail with an error for which `os.IsNotExist` holds. -/
  pathExists : GoString → Bool

/-- An interaction of the program with the outside world. -/
inductive Event where
  /-- An external process was launched with `Run()` or `Output()`. -/
  | exec (name : GoString) (args : List GoString)
  /-- A call of `os.Stat`. -/
  | stat (path : GoString)
  /-- Text written to the standard error stream. -/
  | stderr (text : GoString)
  deriving DecidableEq, Repr

/-- How a run of the program ends: its exit status and its interactions, in order. -/
structure Outcome where
  /-- The exit status of the process. -/
  exit : Nat
  /-- The interactions with the outside world, in order. -/
  trace : List Event
  deriving DecidableEq, Repr

/-! ## `main.go` -/

/-- Go `checkFFmpeg`. -/
def checkFFmpeg (w : World) : Bool × List Event :=
  match w.run "ffmpeg".toList ["-version".toList] with
  | some _ =>
    (false, [Event.exec "ffmpeg".toList ["-version".toList],
      Event.stderr "Warning: ffmpeg not installed or not in PATH. Commands will not work.\n".toList])
  | none => (true, [Event.exec "ffmpeg".toList ["-version".toList]])

/-- The argument list `getDuration` passes to `ffprobe`. -/
def probeArgs (input : GoString) : List GoString :=
  ["-v".toList, "quiet".toList, "-show_entries".toList, "format=duration".toList,
    "-of".toList, "csv=p=0".toList, input]

/-- Go `getDuration`. -/
def getDuration (M : Float64Ops) (w : World) (input : GoString) :
    Except GoString M.F × List Event :=
  match w.output "ffprobe".toList (probeArgs input) with
  | .error err => (.error err, [Event.exec "ffprobe".toList (probeArgs input)])
  | .ok out => (M.parseFloat (TrimSpace out), [Event.exec "ffprobe".toList (probeArgs input)])

/-- The `for { ... }` loop of `generateOutput`: `out` is the current candidate,
`i` the next index (a Go `int`, so `i++` wraps around), `stats` the `os.Stat`
calls made so far.  The loop has no bound in the source; `none` means that
`fuel` iterations found no free name. -/
def generateOutputLoop (w : World) (dir name suffix ext : GoString) :
    Nat → GoString → Int → List Event → Option (GoString × List Event)
  | 0, _, _, _ => none
  | fuel + 1, out, i, stats =>
    if !w.pathExists out then some (out, stats ++ [Event.stat out])
    else
      generateOutputLoop w dir name suffix ext fuel
        (Join dir (name ++ suffix ++ fmtInt i ++ ext)) (wrapInt64 (i + 1))
        (stats ++ [Event.stat out])

/-- Go `generateOutput`: the resolved path and the `os.Stat` calls made. -/
def generateOutput (w : World) (fuel : Nat) (input suffix : GoString) :
    Option (GoString × List Event) :=
  let dir := Dir input
  let base := Base input
  let ext := Ext base
  let name := TrimSuffix base ext
  generateOutputLoop w dir name suffix ext fuel (Join dir (name ++ suffix ++ ext)) 1 []

/-- Go `runCmd`: `none` when it returns, `some 1` when it calls `os.Exit(1)`. -/
def runCmd (w : World) (name : GoString) (args : List GoString) : Option Nat × List Event :=
  match w.run name args with
  | some err =>
    (some 1, [Event.exec name args,
      Event.stderr ("Error running ".toList ++ name ++ ": ".toList ++ err ++ "\n".toList)])
  | none => (none, [Event.exec name args])

/-- The text printed by Go `usage`. -/
def usageText : GoString :=
  ("Usage: ezff <command> [args]\n\nCommands:\n" ++
   "  trim-start <input> <seconds> [--output <output>]\n" ++
   "  trim-end <input> <seconds> [--output <output>]\n" ++
   "  trim-mid <input> <start_cut> <end_cut> [--output <output>]\n" ++
   "  trim <input> <trim_start> <trim_end> [--output <output>]\n").toList

/-- Go `usage`: prints the usage text and calls `os.Exit(1)`. -/
def usage : Outcome := ⟨1, [Event.stderr usageText]⟩

/-- The statements `output := ""; if len(args) > i+1 && args[i] == "--output" { output = args[i+1] }`
of each case of `main`, with `i` the index after the fixed arguments. -/
def explicitOutput (args : List GoString) (i : Nat) : GoString :=
  if args.length > i + 1 && args.getD i [] == "--output".toList then args.getD (i + 1) [] else []

/-- The statement `if output == "" { output = generateOutput(input, "_trim") }`
of each case of `main`. -/
def resolveOutput (w : World) (fuel : Nat) (output input : GoString) :
    Option (GoString × List Event) :=
  if output.isEmpty then generateOutput w fuel input "_trim".toList else some (output, [])

/-- The end of each case of `main`: `runCmd("ffmpeg", cmdArgs)`, then `main`
returns (exit status 0) unless `runCmd` has exited. -/
def finishWith (w : World) (before : List Event) (cmdArgs : List GoString) : Outcome :=
  let r := runCmd w "ffmpeg".toList cmdArgs
  ⟨r.1.getD 0, before ++ r.2⟩

/-- The usage line of the case `"trim-start"` of `main`. -/
def usageTrimStart : GoString :=
  "Usage: ezff trim-start <input> <seconds> [--output <output>]\n".toList

/-- The usage line of the case `"trim-end"` of `main`. -/
def usageTrimEnd : GoString :=
  "Usage: ezff trim-end <input> <seconds> [--output <output>]\n".toList

/-- The usage line of the case `"trim-mid"` of `main`. -/
def usageTrimMid : GoString :=
  "Usage: ezff trim-mid <input> <start_cut> <end_cut> [--output <output>]\n".toList

/-- The usage line of the case `"trim"` of `main`. -/
def usageTrim : GoString :=
  "Usage: ezff trim <input> <trim_start> <trim_end> [--output <output>]\n".toList

/-- The case `"trim-start"` of `main`. -/
def caseTrimStart (M : Float64Ops) (w : World) (fuel : Nat) (args : List GoString) :
    Option Outcome :=
  if args.length < 4 then
    some ⟨1, [Event.stderr usageTrimStart]⟩
  else
    let input := args.getD 2 []
    match M.parseFloat (args.getD 3 []) with
    | .error _ => some ⟨1, [Event.stderr "Invalid seconds\n".toList]⟩
    | .ok seconds =>
      match resolveOutput w fuel (explicitOutput args 4) input with
      | none => none
      | some (output, stats) =>
        some (finishWith w stats
          ["-ss".toList, M.fmtF seconds, "-i".toList, input, "-c".toList, "copy".toList, output])

/-- The case `"trim-end"` of `main`. -/
def caseTrimEnd (M : Float64Ops) (w : World) (fuel : Nat) (args : List GoString) :
    Option Outcome :=
  if args.length < 4 then
    some ⟨1, [Event.stderr usageTrimEnd]⟩
  else
    let input := args.getD 2 []
    match M.parseFloat (args.getD 3 []) with
    | .error _ => some ⟨1, [Event.stderr "Invalid seconds\n".toList]⟩
    | .ok seconds =>
      match getDuration M w input with
      | (.error err, probe) =>
        some ⟨1, probe ++
          [Event.stderr ("Error getting duration: ".toList ++ err ++ "\n".toList)]⟩
      | (.ok dur, probe) =>
        if M.le dur seconds then
          some ⟨1, probe ++ [Event.stderr "Duration too short\n".toList]⟩
        else
          let t := M.sub dur seconds
          match resolveOutput w fuel (explicitOutput args 4) input with
          | none => none
          | some (output, stats) =>
            some (finishWith w (probe ++ stats)
              ["-i".toList, input, "-c".toList, "copy".toList, "-t".toList, M.fmtF t, output])

/-- The `-vf` filter of the case `"trim-mid"`. -/
def videoFilter (s e : GoString) : GoString :=
  "select='not(between(t,".toList ++ s ++ ",".toList ++ e
    ++ "))',setpts=N/FRAME_RATE/TB".toList

/-- The `-af` filter of the case `"trim-mid"`. -/
def audioFilter (s e : GoString) : GoString :=
  "aselect='not(between(t,".toList ++ s ++ ",".toList ++ e
    ++ "))',asetpts=N/SR/TB".toList

/-- The case `"trim-mid"` of `main`. -/
def caseTrimMid (M : Float64Ops) (w : World) (fuel : Nat) (args : List GoString) :
    Option Outcome :=
  if args.length < 5 then
    some ⟨1, [Event.stderr usageTrimMid]⟩
  else
    let input := args.getD 2 []
    match M.parseFloat (args.getD 3 []) with
    | .error _ => some ⟨1, [Event.stderr "Invalid start_cut\n".toList]⟩
    | .ok start =>
      match M.parseFloat (args.getD 4 []) with
      | .error _ => some ⟨1, [Event.stderr "Invalid end_cut\n".toList]⟩
      | .ok stop =>
        if M.ge start stop then
          some ⟨1, [Event.stderr "start_cut must be less than end_cut\n".toList]⟩
        else
          match resolveOutput w fuel (explicitOutput args 5) input with
          | none => none
          | some (output, stats) =>
            let vf := videoFilter (M.fmtF start) (M.fmtF stop)
            let af := audioFilter (M.fmtF start) (M.fmtF stop)
            some (finishWith w stats
              ["-i".toList, input, "-vf".toList, vf, "-af".toList, af, output])

/-- The case `"trim"` of `main`. -/
def caseTrim (M : Float64Ops) (w : World) (fuel : Nat) (args : List GoString) :
    Option Outcome :=
  if args.length < 5 then
    some ⟨1, [Event.stderr usageTrim]⟩
  else
    let input := args.getD 2 []
    match M.parseFloat (args.getD 3 []) with
    | .error _ => some ⟨1, [Event.stderr "Invalid trim_start\n".toList]⟩
    | .ok trimStart =>
      match M.parseFloat (args.getD 4 []) with
      | .error _ => some ⟨1, [Event.stderr "Invalid trim_end\n".toList]⟩
      | .ok trimEnd =>
        match getDuration M w input with
        | (.error err, probe) =>
          some ⟨1, probe ++
            [Event.stderr ("Error getting duration: ".toList ++ err ++ "\n".toList)]⟩
        | (.ok dur, probe) =>
          let totalTrim := M.add trimStart trimEnd
          if M.le dur totalTrim then
            some ⟨1, probe ++ [Event.stderr "Duration too short for trimming\n".toList]⟩
          else
            let t := M.sub dur totalTrim
            match resolveOutput w fuel (explicitOutput args 5) input with
            | none => none
            | some (output, stats) =>
              some (finishWith w (probe ++ stats)
                ["-ss".toList, M.fmtF trimStart, "-i".toList, input, "-t".toList, M.fmtF t,
                  "-c".toList, "copy".toList, output])

/-- The body of `main` after `checkFFmpeg()`: the length test and the `switch`. -/
def dispatch (M : Float64Ops) (w : World) (fuel : Nat) (args : List GoString) :
    Option Outcome :=
  if args.length < 2 then some usage
  else
    let verb := args.getD 1 []
    if verb == "trim-start".toList then caseTrimStart M w fuel args
    else if verb == "trim-end".toList then caseTrimEnd M w fuel args
    else if verb == "trim-mid".toList then caseTrimMid M w fuel args
    else if verb == "trim".toList then caseTrim M w fuel args
    else some usage

/-- Go `main` on `os.Args = args`: `none` when `fuel` iterations of the loop of
`generateOutput` do not find a free name. -/
def main (M : Float64Ops) (w : World) (fuel : Nat) (args : List GoString) : Option Outcome :=
  (dispatch M w fuel args).map fun o => ⟨o.exit, (checkFFmpeg w).2 ++ o.trace⟩


/-! ## Vocabulary of the statements -/

/-- The value of the counter `i` of `generateOutput` when the `k`-th indexed
candidate is built (`k ≥ 1`): `k` itself as long as `k < 2^63`. -/
def counterAt (k : Nat) : Int := wrapInt64 k

/-- The `k`-th candidate of `generateOutput(input, suffix)`: `dir/(name+suffix+ext)`
for `k = 0` and `dir/(name+suffix+i+ext)` for `k ≥ 1`, where `i` is the counter
(equal to `k` for `k < 2^63`) and `dir`, `name` and `ext` are computed from
`input` as in `generateOutput`. -/
def candidate (input suffix : GoString) (k : Nat) : GoString :=
  let dir := Dir input
  let base := Base input
  let ext := Ext base
  let name := TrimSuffix base ext
  match k with
  | 0 => Join dir (name ++ suffix ++ ext)
  | j + 1 => Join dir (name ++ suffix ++ fmtInt (counterAt (j + 1)) ++ ext)

/-- The `os.Stat` calls on the candidates `from, from+1, ..., from+n-1`, in order. -/
def statsOf (input suffix : GoString) (start n : Nat) : List Event :=
  (List.range n).map fun m => Event.stat (candidate input suffix (start + m))

/-- The index in `os.Args` right after the fixed arguments of the verb, where
`main` looks for `--output`: 4 for `trim-start` and `trim-end`, 5 for
`trim-mid` and `trim`. -/
def outputIndex (args : List GoString) : Nat :=
  if args.getD 1 [] == "trim-start".toList || args.getD 1 [] == "trim-end".toList then 4 else 5

/-- The run `r` ends by running `ffmpeg` on a planned command: its trace is the
startup check, the events `before`, and the launch of `ffmpeg` with the
arguments `cmd`; the exit status is 0 when `ffmpeg` returns no error, else the
error is reported and the exit status is 1. -/
def RunsCommand (w : World) (r : Option Outcome) (before : List Event)
    (cmd : List GoString) : Prop :=
  (w.run "ffmpeg".toList cmd = none
    ∧ r = some ⟨0, (checkFFmpeg w).2 ++ (before ++ [Event.exec "ffmpeg".toList cmd])⟩)
  ∨ ∃ err, w.run "ffmpeg".toList cmd = some err
    ∧ r = some ⟨1, (checkFFmpeg w).2 ++ (before ++ [Event.exec "ffmpeg".toList cmd,
        Event.stderr ("Error running ".toList ++ "ffmpeg".toList ++ ": ".toList ++ err
          ++ "\n".toList)])⟩

/-- The outcome `o` is a failure before any command is planned: exit status 1,
and nothing but possibly the duration probe before the final error message. -/
def Rejected (args : List GoString) (o : Outcome) : Prop :=
  ∃ pre text, o = ⟨1, pre ++ [Event.stderr text]⟩
    ∧ (pre = [] ∨ pre = [Event.exec "ffprobe".toList (probeArgs (args.getD 2 []))])

/-- The outcome `o` is that of a planned command: the output path was resolved
to the last argument of `cmd`, and `runCmd("ffmpeg", cmd)` ended the run. -/
def Planned (w : World) (fuel : Nat) (args : List GoString) (o : Outcome) : Prop :=
  ∃ probe stats cmd out, o = finishWith w (probe ++ stats) cmd
    ∧ (probe = [] ∨ probe = [Event.exec "ffprobe".toList (probeArgs (args.getD 2 []))])
    ∧ resolveOutput w fuel (explicitOutput args (outputIndex args)) (args.getD 2 [])
        = some (out, stats)
    ∧ cmd.getLast? = some out ∧ cmd ≠ ["-version".toList]

/-- A fixed-point decimal with exactly six digits after the decimal point: an
optional minus sign, at least one digit, the point, six digits. -/
def FixedSix (s : GoString) : Prop :=
  ∃ sign ip fp, s = sign ++ ip ++ '.' :: fp ∧ (sign = [] ∨ sign = ['-'])
    ∧ ip ≠ [] ∧ (∀ c ∈ ip, c.isDigit = true) ∧ fp.length = 6 ∧ ∀ c ∈ fp, c.isDigit = true

/-! ## Vocabulary for `filepath.Clean` -/

/-- The unread path is at the end of an element: it is empty or starts with a separator. -/
def atBoundary (t : List Char) : Bool := t.isEmpty || isSep (t.headD '/')

/-- A real path element: non-empty, without separator, neither `.` nor `..`. -/
def plain (e : List Char) : Prop :=
  e ≠ [] ∧ (∀ c ∈ e, isSep c = false) ∧ e ≠ ['.'] ∧ e ≠ ['.', '.']

/-- The buffer of `Clean` after the default case has copied the element `e`. -/
def appendElem (rooted : Bool) (out e : List Char) : List Char :=
  (if (rooted && out.length != 1) || (!rooted && out.length != 0) then out ++ ['/'] else out)
    ++ e

/-- The buffer of `Clean` after the `..` case has appended a `..` element. -/
def appendDotDot (out : List Char) : List Char :=
  (if out.length > 0 then out ++ ['/'] else out) ++ ['.', '.']

/-- The main loop of `Clean` with as much fuel as there are unread bytes. -/
def cleanRun (rooted : Bool) (path out : List Char) (dotdot : Nat) : List Char :=
  cleanLoop rooted path.length path out dotdot

/-- The states `(out, dotdot)` of the loop of `Clean`: the initial one, and those
obtained by appending a `..` element where nothing can be removed (unrooted
paths only) or a real element. -/
inductive CleanState (rooted : Bool) : List Char → Nat → Prop where
  | init : CleanState rooted (if rooted then ['/'] else []) (if rooted then 1 else 0)
  | up {out : List Char} {dotdot : Nat} : rooted = false → CleanState rooted out dotdot →
      out.length = dotdot → CleanState rooted (appendDotDot out) (appendDotDot out).length
  | elem {out : List Char} {dotdot : Nat} {e : List Char} : CleanState rooted out dotdot →
      plain e → CleanState rooted (appendElem rooted out e) dotdot

/-- The last step of `Clean`: turn the empty string into `.`. -/
def orDot (out : List Char) : List Char := if out.isEmpty then ['.'] else out

/-! ## Instances used to evaluate the scenarios -/

/-- Reads a non-empty string of decimal digits. -/
def parseDigits (s : GoString) : Except GoString Nat :=
  if !s.isEmpty && s.all Char.isDigit then
    .ok (s.foldl (fun n c => 10 * n + (c.toNat - 48)) 0)
  else .error "invalid syntax".toList

/-- An implementation of `Float64Ops` on whole numbers of seconds: the values
are the integers, the accepted literals are the plain decimal digit strings, and
`%f` prints six zero decimals.  It agrees with `float64` on these literals up
to 2^53 and is used to evaluate the scenarios of the specification. -/
def wholeSeconds : Float64Ops where
  F := Int
  parseFloat s := (parseDigits s).map Int.ofNat
  fmtF x := (if x < 0 then ['-'] else []) ++ Nat.toDigits 10 x.natAbs ++ ".000000".toList
  add x y := x + y
  sub x y := x - y
  le x y := decide (x ≤ y)
  ge x y := decide (x ≥ y)
  lt x y := decide (x < y)
  lt_not_le a b := by simp
  lt_not_ge a b := by simp

/-- Rounds the rational `(-1)^neg * num / den` to the nearest `float64`: the
quotient is taken with 64 bits more than `den` has and a sticky bit for the
remainder, then rounded. -/
def roundRatio (neg : Bool) (num den : Nat) : F64 :=
  if num = 0 then F64.fin neg 0 0
  else
    let s := 64 + bitLength den
    let quo := num * 2 ^ s / den
    let sticky := if num * 2 ^ s % den = 0 then 0 else 1
    round64 neg (2 * quo + sticky) (-((s + 1 : Nat) : Int))

/-- The number written by a string of decimal digits. -/
def digitsValue (s : List Char) : Nat := s.foldl (fun n c => 10 * n + (c.toNat - 48)) 0

/-- `strconv.ParseFloat(s, 64)` on the literals `[+-]digits[.digits]`,
`[+-]inf`, `[+-]infinity` (in any case) and `nan`: the nearest `float64`, an
error when it is out of range.  Literals with an exponent, hexadecimal
literals and underscores, which `ParseFloat` also reads, are rejected by this
instance; none occurs in the scenarios below. -/
def parseLiteral (s : GoString) : Except GoString F64 :=
  let neg := s.headD ' ' == '-'
  let body := if s.headD ' ' == '-' || s.headD ' ' == '+' then s.tail else s
  let low := body.map Char.toLower
  if low == "inf".toList || low == "infinity".toList then .ok (F64.inf neg)
  else if s.map Char.toLower == "nan".toList then .ok F64.nan
  else
    let ip := body.takeWhile Char.isDigit
    let rest := body.dropWhile Char.isDigit
    let fp := if rest.headD ' ' == '.' then rest.tail else []
    if (rest.isEmpty || rest.headD ' ' == '.') && fp.all Char.isDigit
        && !(ip.isEmpty && fp.isEmpty) then
      match roundRatio neg (digitsValue (ip ++ fp)) (10 ^ fp.length) with
      | F64.fin n m e => .ok (F64.fin n m e)
      | _ => .error "value out of range".toList
    else .error "invalid syntax".toList

/-- A world in which every process succeeds, `ffprobe` prints `probed`, and
exactly the paths of `existing` exist. -/
def quietWorld (existing : List GoString) (probed : GoString) : World where
  run _ _ := none
  output _ _ := .ok probed
  pathExists p := existing.contains p

/-- A world like `quietWorld` in which `os.Stat` finds every path. -/
def fullWorld (probed : GoString) : World where
  run _ _ := none
  output _ _ := .ok probed
  pathExists _ := true

/-! ## Theorems -/

/-! ### The path routines on the tables of the Go tests -/

/-- `Clean` on the table `cleantests` of `path_test.go`. -/
theorem Clean_table :
    Clean "".toList = ".".toList
    ∧ Clean "abc".toList = "abc".toList
    ∧ Clean "abc/def".toList = "abc/def".toList
    ∧ Clean "a/b/c".toList = "a/b/c".toList
    ∧ Clean ".".toList = ".".toList
    ∧ Clean "..".toList = "..".toList
    ∧ Clean "../..".toList = "../..".toList
    ∧ Clean "../../abc".toList = "../../abc".toList
    ∧ Clean "/abc".toList = "/abc".toList
    ∧ Clean "/".toList = "/".toList
    ∧ Clean "abc/".toList = "abc".toList
    ∧ Clean "abc/def/".toList = "abc/def".toList
    ∧ Clean "a/b/c/".toList = "a/b/c".toList
    ∧ Clean "./".toList = ".".toList
    ∧ Clean "../".toList = "..".toList
    ∧ Clean "../../".toList = "../..".toList
    ∧ Clean "/abc/".toList = "/abc".toList
    ∧ Clean "abc//def//ghi".toList = "abc/def/ghi".toList
    ∧ Clean "//abc".toList = "/abc".toList
    ∧ Clean "///abc".toList = "/abc".toList
    ∧ Clean "//abc//".toList = "/abc".toList
    ∧ Clean "abc//".toList = "abc".toList
    ∧ Clean "abc/./def".toList = "abc/def".toList
    ∧ Clean "/./abc/def".toList = "/abc/def".toList
    ∧ Clean "abc/.".toList = "abc".toList
    ∧ Clean "abc/def/ghi/../jkl".toList = "abc/def/jkl".toList
    ∧ Clean "abc/def/../ghi/../jkl".toList = "abc/jkl".toList
    ∧ Clean "abc/def/..".toList = "abc".toList
    ∧ Clean "abc/def/../..".toList = ".".toList
    ∧ Clean "/abc/def/../..".toList = "/".toList
    ∧ Clean "abc/def/../../..".toList = "..".toList
    ∧ Clean "/abc/def/../../..".toList = "/".toList
    ∧ Clean "abc/def/../../../ghi/jkl/../../../mno".toList = "../../mno".toList
    ∧ Clean "/../abc".toList = "/abc".toList
    ∧ Clean "a/../b:/../../c".toList = "../c".toList
    ∧ Clean "abc/./../def".toList = "def".toList
    ∧ Clean "abc//./../def".toList = "def".toList
    ∧ Clean "abc/../../././../def".toList = "../../def".toList := by
  decide

/-- `Base` on the table `basetests` of `path_test.go`. -/
theorem Base_table :
    Base "".toList = ".".toList
    ∧ Base ".".toList = ".".toList
    ∧ Base "/.".toList = ".".toList
    ∧ Base "/".toList = "/".toList
    ∧ Base "////".toList = "/".toList
    ∧ Base "x/".toList = "x".toList
    ∧ Base "abc".toList = "abc".toList
    ∧ Base "abc/def".toList = "def".toList
    ∧ Base "a/b/.x".toList = ".x".toList
    ∧ Base "a/b/c.".toList = "c.".toList
    ∧ Base "a/b/c.x".toList = "c.x".toList := by
  decide

/-- `Dir` on the table `dirtests` of `path_test.go`. -/
theorem Dir_table :
    Dir "".toList = ".".toList
    ∧ Dir ".".toList = ".".toList
    ∧ Dir "/.".toList = "/".toList
    ∧ Dir "/".toList = "/".toList
    ∧ Dir "/foo".toList = "/".toList
    ∧ Dir "x/".toList = "x".toList
    ∧ Dir "abc".toList = ".".toList
    ∧ Dir "abc/def".toList = "abc".toList
    ∧ Dir "a/b/.x".toList = "a/b".toList
    ∧ Dir "a/b/c.".toList = "a/b".toList
    ∧ Dir "a/b/c.x".toList = "a/b".toList
    ∧ Dir "////".toList = "/".toList
    ∧ Dir "abc//def".toList = "abc".toList := by
  decide

/-- `Ext` on the table `exttests` of `path_test.go`. -/
theorem Ext_table :
    Ext "path.go".toList = ".go".toList
    ∧ Ext "path.pb.go".toList = ".go".toList
    ∧ Ext "a.dir/b".toList = "".toList
    ∧ Ext "a.dir/b.go".toList = ".go".toList
    ∧ Ext "a.dir/".toList = "".toList
    ∧ Ext "..".toList = ".".toList
    ∧ Ext ".bashrc".toList = ".bashrc".toList := by
  decide

/-- `Join` of two elements on the table `jointests` of `path_test.go`. -/
theorem Join_table :
    Join "a".toList "b".toList = "a/b".toList
    ∧ Join "a".toList "".toList = "a".toList
    ∧ Join "".toList "b".toList = "b".toList
    ∧ Join "/".toList "a".toList = "/a".toList
    ∧ Join "/".toList "".toList = "/".toList
    ∧ Join "a/".toList "b".toList = "a/b".toList
    ∧ Join "a/".toList "".toList = "a".toList
    ∧ Join "".toList "".toList = "".toList
    ∧ Join ".".toList "x_trim.mp4".toList = "x_trim.mp4".toList
    ∧ Join "/".toList "/_trim".toList = "/_trim".toList := by
  decide

/-- The string routines and the `int` arithmetic on examples. -/
theorem strings_examples :
    TrimSuffix "clip.mp4".toList ".mp4".toList = "clip".toList
    ∧ TrimSuffix "clip".toList [] = "clip".toList
    ∧ TrimSpace " 12.5\n".toList = "12.5".toList
    ∧ fmtInt 120 = "120".toList
    ∧ fmtInt (-7) = "-7".toList
    ∧ wrapInt64 (9223372036854775807 + 1) = -9223372036854775808 := by
  decide

/-! ### `generateOutput` -/

theorem counterAt_succ (j : Nat) : wrapInt64 (counterAt (j + 1) + 1) = counterAt (j + 1 + 1) := by
  unfold counterAt wrapInt64
  push_cast
  omega

theorem counterAt_small (k : Nat) (hk : k < 9223372036854775808) : counterAt k = k := by
  unfold counterAt wrapInt64
  omega

theorem statsOf_succ (input suffix : GoString) (start n : Nat) :
    statsOf input suffix start (n + 1)
      = Event.stat (candidate input suffix start) :: statsOf input suffix (start + 1) n := by
  unfold statsOf
  rw [List.range_succ_eq_map]
  simp [List.map_map, Function.comp_def, Nat.add_assoc, Nat.add_comm 1]

theorem generateOutputLoop_spec (w : World) (input suffix : GoString) :
    ∀ (n fuel j : Nat) (stats : List Event),
      (∀ m, m < n → w.pathExists (candidate input suffix (j + m)) = true) →
      w.pathExists (candidate input suffix (j + n)) = false →
      n < fuel →
      generateOutputLoop w (Dir input) (TrimSuffix (Base input) (Ext (Base input))) suffix
          (Ext (Base input)) fuel (candidate input suffix j) (counterAt (j + 1)) stats
        = some (candidate input suffix (j + n), stats ++ statsOf input suffix j (n + 1)) := by
  intro n
  induction n with
  | zero =>
    intro fuel j stats _ hfree hfuel
    obtain ⟨f, rfl⟩ : ∃ f, fuel = f + 1 := ⟨fuel - 1, by omega⟩
    simp only [Nat.add_zero] at hfree
    rw [statsOf_succ]
    simp [generateOutputLoop, hfree, statsOf]
  | succ n ih =>
    intro fuel j stats hex hfree hfuel
    obtain ⟨f, rfl⟩ : ∃ f, fuel = f + 1 := ⟨fuel - 1, by omega⟩
    have h0 : w.pathExists (candidate input suffix j) = true := by
      simpa using hex 0 (Nat.succ_pos n)
    have hstep : Join (Dir input)
        (TrimSuffix (Base input) (Ext (Base input)) ++ suffix ++ fmtInt (counterAt (j + 1))
          ++ Ext (Base input)) = candidate input suffix (j + 1) := rfl
    rw [generateOutputLoop]
    simp only [h0, Bool.not_true, Bool.false_eq_true, if_false, hstep, counterAt_succ]
    rw [ih f (j + 1) (stats ++ [Event.stat (candidate input suffix j)])
      (fun m hm => by
        have := hex (m + 1) (Nat.succ_lt_succ hm)
        rwa [show j + (m + 1) = j + 1 + m by omega] at this)
      (by rwa [show j + 1 + n = j + (n + 1) by omega])
      (by omega)]
    rw [statsOf_succ input suffix j (n + 1)]
    simp [show j + 1 + n = j + (n + 1) by omega]

theorem generateOutputLoop_free (w : World) (dir name suffix ext : GoString) :
    ∀ (fuel : Nat) (out : GoString) (i : Int) (stats : List Event) (r : GoString × List Event),
      generateOutputLoop w dir name suffix ext fuel out i stats = some r →
      w.pathExists r.1 = false := by
  intro fuel
  induction fuel with
  | zero => intro out i stats r h; simp [generateOutputLoop] at h
  | succ f ih =>
    intro out i stats r h
    rw [generateOutputLoop] at h
    by_cases hx : w.pathExists out = true
    · simp only [hx, Bool.not_true, Bool.false_eq_true, if_false] at h
      exact ih (Join dir (name ++ suffix ++ fmtInt i ++ ext)) (wrapInt64 (i + 1))
        (stats ++ [Event.stat out]) r h
    · simp only [Bool.not_eq_true] at hx
      simp only [hx, Bool.not_false, if_true, Option.some.injEq] at h
      subst h
      exact hx

theorem generateOutput_at_first_free (w : World) (input suffix : GoString) (k : Nat)
    (hex : ∀ j, j < k → w.pathExists (candidate input suffix j) = true)
    (hfree : w.pathExists (candidate input suffix k) = false) (fuel : Nat) (hfuel : k < fuel) :
    generateOutput w fuel input suffix
      = some (candidate input suffix k, statsOf input suffix 0 (k + 1)) := by
  have := generateOutputLoop_spec w input suffix k fuel 0 []
    (fun m hm => by simpa using hex m hm) (by simpa using hfree) hfuel
  have h1 : counterAt (0 + 1) = 1 := by decide
  rw [h1] at this
  simpa [generateOutput, candidate] using this

theorem generateOutput_terminates (w : World) (input suffix : GoString)
    (hex : ∃ k, w.pathExists (candidate input suffix k) = false) :
    ∃ fuel r, generateOutput w fuel input suffix = some r := by
  classical
  refine ⟨Nat.find hex + 1, _, generateOutput_at_first_free w input suffix (Nat.find hex)
    (fun j hj => ?_) (Nat.find_spec hex) _ (Nat.lt_succ_self _)⟩
  have := Nat.find_min hex hj
  simpa using this

theorem generateOutputLoop_full (w : World) (dir name suffix ext : GoString)
    (hfull : ∀ path, w.pathExists path = true) :
    ∀ (fuel : Nat) (out : GoString) (i : Int) (stats : List Event),
      generateOutputLoop w dir name suffix ext fuel out i stats = none := by
  intro fuel
  induction fuel with
  | zero => intro out i stats; rfl
  | succ f ih =>
    intro out i stats
    rw [generateOutputLoop]
    simp only [hfull out, Bool.not_true, Bool.false_eq_true, if_false]
    exact ih (Join dir (name ++ suffix ++ fmtInt i ++ ext)) (wrapInt64 (i + 1))
      (stats ++ [Event.stat out])

/-- C1. `generateOutput(input, suffix)` returns the first candidate of the
sequence `dir/(name+suffix+ext)`, `dir/(name+suffix+1+ext)`, `dir/(name+suffix+2+ext)`, ...
at which nothing exists: the un-indexed one when it is free, else the one with
the smallest index `k ≥ 1` that is free, having called `os.Stat` on exactly the
candidates up to it.  When some candidate is free the search terminates, and a
returned path never exists.  The index printed for the `k`-th candidate is the
Go `int` counter, which is `k` for every `k < 2^63`. -/
theorem generateOutput_first_free (w : World) (input suffix : GoString) :
    (∀ k, (∀ j, j < k → w.pathExists (candidate input suffix j) = true) →
        w.pathExists (candidate input suffix k) = false →
        ∀ fuel, k < fuel →
          generateOutput w fuel input suffix
            = some (candidate input suffix k, statsOf input suffix 0 (k + 1)))
    ∧ ((∃ k, w.pathExists (candidate input suffix k) = false) →
        ∃ fuel r, generateOutput w fuel input suffix = some r)
    ∧ (∀ fuel r, generateOutput w fuel input suffix = some r → w.pathExists r.1 = false)
    ∧ (∀ k, k < 2 ^ 63 → counterAt k = k) :=
  ⟨fun k hex hfree fuel hfuel =>
      generateOutput_at_first_free w input suffix k hex hfree fuel hfuel,
    generateOutput_terminates w input suffix,
    fun fuel r h => generateOutputLoop_free w _ _ _ _ fuel _ _ _ r h,
    fun k hk => counterAt_small k (by simpa using hk)⟩

/-- C1, at a concrete filesystem: with `clip_trim.mp4` and `clip_trim1.mp4`
present, `generateOutput("clip.mp4", "_trim")` is `clip_trim2.mp4`. -/
theorem generateOutput_first_free_witness :
    generateOutput (quietWorld ["clip_trim.mp4".toList, "clip_trim1.mp4".toList] []) 3
        "clip.mp4".toList "_trim".toList
      = some ("clip_trim2.mp4".toList,
          [Event.stat "clip_trim.mp4".toList, Event.stat "clip_trim1.mp4".toList,
            Event.stat "clip_trim2.mp4".toList]) :=
  ((generateOutput_first_free
      (quietWorld ["clip_trim.mp4".toList, "clip_trim1.mp4".toList] [])
      "clip.mp4".toList "_trim".toList).1 2 (by decide) (by decide) 3 (by decide)).trans
    (by decide)


/-! ### The dispatcher -/

theorem verbs_distinct :
    ("trim-end".toList == "trim-start".toList) = false
    ∧ ("trim-mid".toList == "trim-start".toList) = false
    ∧ ("trim-mid".toList == "trim-end".toList) = false
    ∧ ("trim".toList == "trim-start".toList) = false
    ∧ ("trim".toList == "trim-end".toList) = false
    ∧ ("trim".toList == "trim-mid".toList) = false := by decide

theorem dispatch_trimStart (M : Float64Ops) (w : World) (fuel : Nat) (args : List GoString)
    (hlen : 2 ≤ args.length) (hverb : args.getD 1 [] = "trim-start".toList) :
    dispatch M w fuel args = caseTrimStart M w fuel args := by
  unfold dispatch
  rw [if_neg (by omega)]
  simp only [hverb, beq_self_eq_true, if_true]

theorem dispatch_trimEnd (M : Float64Ops) (w : World) (fuel : Nat) (args : List GoString)
    (hlen : 2 ≤ args.length) (hverb : args.getD 1 [] = "trim-end".toList) :
    dispatch M w fuel args = caseTrimEnd M w fuel args := by
  unfold dispatch
  rw [if_neg (by omega)]
  simp only [hverb, verbs_distinct.1, beq_self_eq_true, if_true, Bool.false_eq_true, if_false]

theorem dispatch_trimMid (M : Float64Ops) (w : World) (fuel : Nat) (args : List GoString)
    (hlen : 2 ≤ args.length) (hverb : args.getD 1 [] = "trim-mid".toList) :
    dispatch M w fuel args = caseTrimMid M w fuel args := by
  unfold dispatch
  rw [if_neg (by omega)]
  simp only [hverb, verbs_distinct.2.1, verbs_distinct.2.2.1, beq_self_eq_true, if_true,
    Bool.false_eq_true, if_false]

theorem dispatch_trim (M : Float64Ops) (w : World) (fuel : Nat) (args : List GoString)
    (hlen : 2 ≤ args.length) (hverb : args.getD 1 [] = "trim".toList) :
    dispatch M w fuel args = caseTrim M w fuel args := by
  unfold dispatch
  rw [if_neg (by omega)]
  simp only [hverb, verbs_distinct.2.2.2.1, verbs_distinct.2.2.2.2.1,
    verbs_distinct.2.2.2.2.2, beq_self_eq_true, if_true, Bool.false_eq_true, if_false]

theorem main_of_dispatch (M : Float64Ops) (w : World) (fuel : Nat) (args : List GoString)
    (o : Outcome) (h : dispatch M w fuel args = some o) :
    main M w fuel args = some ⟨o.exit, (checkFFmpeg w).2 ++ o.trace⟩ := by
  simp [main, h]

/-- C8. When the argument list has no verb, an unknown verb, or fewer fixed
arguments than the verb needs (length below 4 for `trim-start` and `trim-end`,
below 5 for `trim-mid` and `trim`, counting the program name and the verb), the
program, after the startup check of `checkFFmpeg`, only prints a usage message
and exits with status 1: no process is launched and `os.Stat` is not called. -/
theorem usage_on_bad_arguments (M : Float64Ops) (w : World) (fuel : Nat)
    (args : List GoString)
    (h : args.length < 2
      ∨ (args.getD 1 [] ≠ "trim-start".toList ∧ args.getD 1 [] ≠ "trim-end".toList
          ∧ args.getD 1 [] ≠ "trim-mid".toList ∧ args.getD 1 [] ≠ "trim".toList)
      ∨ ((args.getD 1 [] = "trim-start".toList ∨ args.getD 1 [] = "trim-end".toList)
          ∧ args.length < 4)
      ∨ ((args.getD 1 [] = "trim-mid".toList ∨ args.getD 1 [] = "trim".toList)
          ∧ args.length < 5)) :
    ∃ msg, "Usage: ezff ".toList <+: msg
      ∧ main M w fuel args = some ⟨1, (checkFFmpeg w).2 ++ [Event.stderr msg]⟩ := by
  by_cases hlen : args.length < 2
  · exact ⟨usageText, by decide,
      main_of_dispatch M w fuel args usage (by simp [dispatch, hlen])⟩
  have hlen2 : 2 ≤ args.length := by omega
  rcases h with h | ⟨h1, h2, h3, h4⟩ | ⟨h | h, hl⟩ | ⟨h | h, hl⟩
  · exact absurd h hlen
  · refine ⟨usageText, by decide, main_of_dispatch M w fuel args usage ?_⟩
    unfold dispatch
    rw [if_neg hlen]
    simp only [beq_eq_false_iff_ne.mpr h1, beq_eq_false_iff_ne.mpr h2,
      beq_eq_false_iff_ne.mpr h3, beq_eq_false_iff_ne.mpr h4, Bool.false_eq_true, if_false]
  · exact ⟨usageTrimStart, by decide,
      main_of_dispatch M w fuel args ⟨1, [Event.stderr usageTrimStart]⟩
      (by rw [dispatch_trimStart M w fuel args hlen2 h, caseTrimStart, if_pos hl])⟩
  · exact ⟨usageTrimEnd, by decide,
      main_of_dispatch M w fuel args ⟨1, [Event.stderr usageTrimEnd]⟩
      (by rw [dispatch_trimEnd M w fuel args hlen2 h, caseTrimEnd, if_pos hl])⟩
  · exact ⟨usageTrimMid, by decide,
      main_of_dispatch M w fuel args ⟨1, [Event.stderr usageTrimMid]⟩
      (by rw [dispatch_trimMid M w fuel args hlen2 h, caseTrimMid, if_pos hl])⟩
  · exact ⟨usageTrim, by decide,
      main_of_dispatch M w fuel args ⟨1, [Event.stderr usageTrim]⟩
      (by rw [dispatch_trim M w fuel args hlen2 h, caseTrim, if_pos hl])⟩

/-- C8, at a concrete argument list: `ezff trim-mid clip.mp4 30` lacks the
second number. -/
theorem usage_on_bad_arguments_witness :
    ∃ msg, "Usage: ezff ".toList <+: msg
      ∧ main wholeSeconds (quietWorld [] []) 0
          ["ezff".toList, "trim-mid".toList, "clip.mp4".toList, "30".toList]
        = some ⟨1, (checkFFmpeg (quietWorld [] [])).2 ++ [Event.stderr msg]⟩ :=
  usage_on_bad_arguments wholeSeconds (quietWorld [] []) 0
    ["ezff".toList, "trim-mid".toList, "clip.mp4".toList, "30".toList]
    (Or.inr (Or.inr (Or.inr ⟨Or.inl (by decide), by decide⟩)))


/-! ### Validation failures -/

theorem getDuration_ok (M : Float64Ops) (w : World) (input raw : GoString)
    (hraw : w.output "ffprobe".toList (probeArgs input) = .ok raw) :
    getDuration M w input
      = (M.parseFloat (TrimSpace raw), [Event.exec "ffprobe".toList (probeArgs input)]) := by
  simp only [getDuration, hraw]

theorem getDuration_trace (M : Float64Ops) (w : World) (input : GoString) :
    (getDuration M w input).2 = [Event.exec "ffprobe".toList (probeArgs input)] := by
  unfold getDuration
  split <;> rfl

/-- C2. In the two modes that need the duration: a `trim-end` request whose
probed duration satisfies `duration <= seconds`, and a `trim` request whose
probed duration satisfies `duration <= trimStart + trimEnd`, end with exit
status 1 after the startup check, the duration probe and one error message;
`ffmpeg` is not run on any command and `os.Stat` is not called. -/
theorem too_short_is_rejected (M : Float64Ops) (w : World) (fuel : Nat) (args : List GoString)
    (raw : GoString) (d : M.F)
    (hraw : w.output "ffprobe".toList (probeArgs (args.getD 2 [])) = .ok raw)
    (hd : M.parseFloat (TrimSpace raw) = .ok d) :
    (∀ s, 4 ≤ args.length → args.getD 1 [] = "trim-end".toList →
        M.parseFloat (args.getD 3 []) = .ok s → M.le d s = true →
        main M w fuel args = some ⟨1, (checkFFmpeg w).2 ++
          [Event.exec "ffprobe".toList (probeArgs (args.getD 2 [])),
            Event.stderr "Duration too short\n".toList]⟩)
    ∧ (∀ a b, 5 ≤ args.length → args.getD 1 [] = "trim".toList →
        M.parseFloat (args.getD 3 []) = .ok a → M.parseFloat (args.getD 4 []) = .ok b →
        M.le d (M.add a b) = true →
        main M w fuel args = some ⟨1, (checkFFmpeg w).2 ++
          [Event.exec "ffprobe".toList (probeArgs (args.getD 2 [])),
            Event.stderr "Duration too short for trimming\n".toList]⟩) := by
  constructor
  · intro s hlen hverb hs hle
    refine main_of_dispatch M w fuel args ⟨1, _⟩ ?_
    rw [dispatch_trimEnd M w fuel args (by omega) hverb, caseTrimEnd, if_neg (by omega)]
    simp only [hs, getDuration_ok M w _ raw hraw, hd, hle, if_true]
    rfl
  · intro a b hlen hverb ha hb hle
    refine main_of_dispatch M w fuel args ⟨1, _⟩ ?_
    rw [dispatch_trim M w fuel args (by omega) hverb, caseTrim, if_neg (by omega)]
    simp only [ha, hb, getDuration_ok M w _ raw hraw, hd, hle, if_true]
    rfl

/-- C2, the scenarios: `trim clip.mp4 50 60` and `trim-end clip.mp4 100`
with duration 100 are rejected. -/
theorem too_short_is_rejected_witness :
    main wholeSeconds (quietWorld [] "100\n".toList) 0
        ["ezff".toList, "trim".toList, "clip.mp4".toList, "50".toList, "60".toList]
      = some ⟨1, (checkFFmpeg (quietWorld [] "100\n".toList)).2 ++
          [Event.exec "ffprobe".toList (probeArgs "clip.mp4".toList),
            Event.stderr "Duration too short for trimming\n".toList]⟩
    ∧ main wholeSeconds (quietWorld [] "100\n".toList) 0
        ["ezff".toList, "trim-end".toList, "clip.mp4".toList, "100".toList]
      = some ⟨1, (checkFFmpeg (quietWorld [] "100\n".toList)).2 ++
          [Event.exec "ffprobe".toList (probeArgs "clip.mp4".toList),
            Event.stderr "Duration too short\n".toList]⟩ :=
  ⟨(too_short_is_rejected wholeSeconds (quietWorld [] "100\n".toList) 0
      ["ezff".toList, "trim".toList, "clip.mp4".toList, "50".toList, "60".toList]
      "100\n".toList (100 : Int) rfl rfl).2 (50 : Int) (60 : Int) (by decide) (by decide)
      rfl rfl (by decide),
   (too_short_is_rejected wholeSeconds (quietWorld [] "100\n".toList) 0
      ["ezff".toList, "trim-end".toList, "clip.mp4".toList, "100".toList]
      "100\n".toList (100 : Int) rfl rfl).1 (100 : Int) (by decide) (by decide)
      rfl (by decide)⟩

/-- C3. A `trim-mid` request with `startCut >= endCut` (equality included) ends
with exit status 1 after the startup check and one error message, whatever the
duration probe and the filesystem would answer: `ffprobe` and `ffmpeg` are not
run on it and `os.Stat` is not called. -/
theorem trimMid_bad_window_is_rejected (M : Float64Ops) (w : World) (fuel : Nat)
    (args : List GoString) (s e : M.F)
    (hlen : 5 ≤ args.length) (hverb : args.getD 1 [] = "trim-mid".toList)
    (hs : M.parseFloat (args.getD 3 []) = .ok s) (he : M.parseFloat (args.getD 4 []) = .ok e)
    (hge : M.ge s e = true) :
    main M w fuel args = some ⟨1, (checkFFmpeg w).2 ++
      [Event.stderr "start_cut must be less than end_cut\n".toList]⟩ := by
  refine main_of_dispatch M w fuel args ⟨1, _⟩ ?_
  rw [dispatch_trimMid M w fuel args (by omega) hverb, caseTrimMid, if_neg (by omega)]
  simp only [hs, he, hge, if_true]

/-- C3, at concrete requests: `trim-mid clip.mp4 40 30` and the boundary
`trim-mid clip.mp4 30 30`. -/
theorem trimMid_bad_window_is_rejected_witness :
    main wholeSeconds (fullWorld []) 0
        ["ezff".toList, "trim-mid".toList, "clip.mp4".toList, "40".toList, "30".toList]
      = some ⟨1, (checkFFmpeg (fullWorld [])).2 ++
          [Event.stderr "start_cut must be less than end_cut\n".toList]⟩
    ∧ main wholeSeconds (fullWorld []) 0
        ["ezff".toList, "trim-mid".toList, "clip.mp4".toList, "30".toList, "30".toList]
      = some ⟨1, (checkFFmpeg (fullWorld [])).2 ++
          [Event.stderr "start_cut must be less than end_cut\n".toList]⟩ :=
  ⟨trimMid_bad_window_is_rejected wholeSeconds (fullWorld []) 0
      ["ezff".toList, "trim-mid".toList, "clip.mp4".toList, "40".toList, "30".toList]
      (40 : Int) (30 : Int) (by decide) (by decide) rfl rfl (by decide),
   trimMid_bad_window_is_rejected wholeSeconds (fullWorld []) 0
      ["ezff".toList, "trim-mid".toList, "clip.mp4".toList, "30".toList, "30".toList]
      (30 : Int) (30 : Int) (by decide) (by decide) rfl rfl (by decide)⟩


/-! ### Planned commands -/

theorem finishWith_shape (w : World) (before : List Event) (cmdArgs : List GoString) :
    (w.run "ffmpeg".toList cmdArgs = none ∧
      finishWith w before cmdArgs
        = ⟨0, before ++ [Event.exec "ffmpeg".toList cmdArgs]⟩)
    ∨ (∃ err, w.run "ffmpeg".toList cmdArgs = some err ∧
      finishWith w before cmdArgs
        = ⟨1, before ++ [Event.exec "ffmpeg".toList cmdArgs,
            Event.stderr ("Error running ".toList ++ "ffmpeg".toList ++ ": ".toList ++ err
              ++ "\n".toList)]⟩) := by
  unfold finishWith runCmd
  cases h : w.run "ffmpeg".toList cmdArgs with
  | none => left; simp
  | some err => right; exact ⟨err, rfl, by simp⟩

theorem resolveOutput_explicit (w : World) (fuel : Nat) (p input : GoString) (hne : p ≠ []) :
    resolveOutput w fuel p input = some (p, []) := by
  cases p with
  | nil => exact absurd rfl hne
  | cons c cs => rfl

theorem resolveOutput_isSome (w : World) (output input : GoString)
    (h : output ≠ [] ∨ ∃ k, w.pathExists (candidate input "_trim".toList k) = false) :
    ∃ fuel out stats, resolveOutput w fuel output input = some (out, stats) := by
  by_cases hne : output = []
  · subst hne
    rcases h with h | h
    · exact absurd rfl h
    · obtain ⟨fuel, ⟨out, stats⟩, hgen⟩ := generateOutput_terminates w input _ h
      exact ⟨fuel, out, stats, by simpa [resolveOutput] using hgen⟩
  · exact ⟨0, output, [], resolveOutput_explicit w 0 output input hne⟩

theorem runsCommand_of_dispatch (M : Float64Ops) (w : World) (fuel : Nat)
    (args : List GoString) (before : List Event) (cmd : List GoString)
    (h : dispatch M w fuel args = some (finishWith w before cmd)) :
    RunsCommand w (main M w fuel args) before cmd := by
  rcases finishWith_shape w before cmd with ⟨hrun, hf⟩ | ⟨err, hrun, hf⟩
  · exact Or.inl ⟨hrun, by rw [main_of_dispatch M w fuel args _ h, hf]⟩
  · exact Or.inr ⟨err, hrun, by rw [main_of_dispatch M w fuel args _ h, hf]⟩

/-- What a request that passes validation does, given that the dispatcher runs
`cmd output` once the output path is resolved. -/
theorem planned_request (M : Float64Ops) (w : World) (fuel : Nat) (args : List GoString)
    (output input : GoString) (probe : List Event) (cmd : GoString → List GoString)
    (hd : ∀ fuel, dispatch M w fuel args
      = (resolveOutput w fuel output input).map
          fun r => finishWith w (probe ++ r.2) (cmd r.1)) :
    (output = [] →
        (∀ out stats, generateOutput w fuel input "_trim".toList = some (out, stats) →
          RunsCommand w (main M w fuel args) (probe ++ stats) (cmd out))
        ∧ (generateOutput w fuel input "_trim".toList = none → main M w fuel args = none)
        ∧ ((∃ k, w.pathExists (candidate input "_trim".toList k) = false) →
            ∃ fuel' o, main M w fuel' args = some o))
    ∧ (output ≠ [] → RunsCommand w (main M w fuel args) probe (cmd output)) := by
  constructor
  · intro hnil
    subst hnil
    have hres : ∀ fuel, resolveOutput w fuel [] input
        = generateOutput w fuel input "_trim".toList := fun _ => rfl
    refine ⟨fun out stats hgen => ?_, fun hgen => ?_, fun hfree => ?_⟩
    · exact runsCommand_of_dispatch M w fuel args _ _ (by rw [hd, hres, hgen]; rfl)
    · simp only [main, hd, hres, hgen, Option.map_none']
    · obtain ⟨fuel', out, stats, hr⟩ := resolveOutput_isSome w [] input (Or.inr hfree)
      exact ⟨fuel', _, main_of_dispatch M w fuel' args _ (by rw [hd, hr]; rfl)⟩
  · intro hne
    have := runsCommand_of_dispatch M w fuel args (probe ++ []) (cmd output)
      (by rw [hd, resolveOutput_explicit w fuel output input hne]; rfl)
    simpa using this

theorem caseTrimEnd_planned (M : Float64Ops) (w : World) (fuel : Nat) (args : List GoString)
    (raw : GoString) (s d : M.F)
    (hlen : 4 ≤ args.length)
    (hs : M.parseFloat (args.getD 3 []) = .ok s)
    (hraw : w.output "ffprobe".toList (probeArgs (args.getD 2 [])) = .ok raw)
    (hd : M.parseFloat (TrimSpace raw) = .ok d)
    (hle : M.le d s = false) :
    caseTrimEnd M w fuel args
      = (resolveOutput w fuel (explicitOutput args 4) (args.getD 2 [])).map fun r =>
          finishWith w ([Event.exec "ffprobe".toList (probeArgs (args.getD 2 []))] ++ r.2)
            ["-i".toList, args.getD 2 [], "-c".toList, "copy".toList, "-t".toList,
              M.fmtF (M.sub d s), r.1] := by
  rw [caseTrimEnd, if_neg (by omega)]
  simp only [hs, getDuration_ok M w _ raw hraw, hd, hle, Bool.false_eq_true, if_false]
  cases resolveOutput w fuel (explicitOutput args 4) (args.getD 2 []) <;> rfl

theorem caseTrim_planned (M : Float64Ops) (w : World) (fuel : Nat) (args : List GoString)
    (raw : GoString) (a b d : M.F)
    (hlen : 5 ≤ args.length)
    (ha : M.parseFloat (args.getD 3 []) = .ok a)
    (hb : M.parseFloat (args.getD 4 []) = .ok b)
    (hraw : w.output "ffprobe".toList (probeArgs (args.getD 2 [])) = .ok raw)
    (hd : M.parseFloat (TrimSpace raw) = .ok d)
    (hle : M.le d (M.add a b) = false) :
    caseTrim M w fuel args
      = (resolveOutput w fuel (explicitOutput args 5) (args.getD 2 [])).map fun r =>
          finishWith w ([Event.exec "ffprobe".toList (probeArgs (args.getD 2 []))] ++ r.2)
            ["-ss".toList, M.fmtF a, "-i".toList, args.getD 2 [], "-t".toList,
              M.fmtF (M.sub d (M.add a b)), "-c".toList, "copy".toList, r.1] := by
  rw [caseTrim, if_neg (by omega)]
  simp only [ha, hb, getDuration_ok M w _ raw hraw, hd, hle, Bool.false_eq_true, if_false]
  cases resolveOutput w fuel (explicitOutput args 5) (args.getD 2 []) <;> rfl

theorem caseTrimMid_planned (M : Float64Ops) (w : World) (fuel : Nat) (args : List GoString)
    (s e : M.F)
    (hlen : 5 ≤ args.length)
    (hs : M.parseFloat (args.getD 3 []) = .ok s)
    (he : M.parseFloat (args.getD 4 []) = .ok e)
    (hge : M.ge s e = false) :
    caseTrimMid M w fuel args
      = (resolveOutput w fuel (explicitOutput args 5) (args.getD 2 [])).map fun r =>
          finishWith w ([] ++ r.2)
            ["-i".toList, args.getD 2 [], "-vf".toList,
              "select='not(between(t,".toList ++ M.fmtF s ++ ",".toList ++ M.fmtF e
                ++ "))',setpts=N/FRAME_RATE/TB".toList,
              "-af".toList,
              "aselect='not(between(t,".toList ++ M.fmtF s ++ ",".toList ++ M.fmtF e
                ++ "))',asetpts=N/SR/TB".toList,
              r.1] := by
  rw [caseTrimMid, if_neg (by omega)]
  simp only [hs, he, hge, Bool.false_eq_true, if_false]
  cases resolveOutput w fuel (explicitOutput args 5) (args.getD 2 []) <;> rfl

theorem toDigitsCore_isDigit :
    ∀ (fuel n : Nat) (ds : List Char), (∀ c ∈ ds, c.isDigit = true) →
      ∀ c ∈ Nat.toDigitsCore 10 fuel n ds, c.isDigit = true := by
  have hdigit : ∀ m, m < 10 → (Nat.digitChar m).isDigit = true := by decide
  intro fuel
  induction fuel with
  | zero => intro n ds hds; simpa [Nat.toDigitsCore] using hds
  | succ f ih =>
    intro n ds hds
    have hcons : ∀ c ∈ Nat.digitChar (n % 10) :: ds, c.isDigit = true := by
      intro c hc
      rcases List.mem_cons.mp hc with rfl | hc
      · exact hdigit _ (Nat.mod_lt _ (by decide))
      · exact hds c hc
    simp only [Nat.toDigitsCore]
    split
    · exact hcons
    · exact ih _ _ hcons

theorem toDigitsCore_ne_nil :
    ∀ (fuel n : Nat) (ds : List Char), ds ≠ [] → Nat.toDigitsCore 10 fuel n ds ≠ [] := by
  intro fuel
  induction fuel with
  | zero => intro n ds hds; simpa [Nat.toDigitsCore] using hds
  | succ f ih =>
    intro n ds _
    simp only [Nat.toDigitsCore]
    split
    · simp
    · exact ih _ _ (by simp)

theorem toDigits_ne_nil (n : Nat) : Nat.toDigits 10 n ≠ [] := by
  unfold Nat.toDigits
  simp only [Nat.toDigitsCore]
  split
  · simp
  · exact toDigitsCore_ne_nil _ _ _ (by simp)

theorem sixDigits_spec (k : Nat) :
    (sixDigits k).length = 6 ∧ ∀ c ∈ sixDigits k, c.isDigit = true := by
  have hdigit : ∀ m, m < 10 → (Nat.digitChar m).isDigit = true := by decide
  refine ⟨rfl, fun c hc => ?_⟩
  simp only [sixDigits, List.map_cons, List.map_nil, List.mem_cons, List.mem_singleton,
    List.not_mem_nil, or_false] at hc
  rcases hc with rfl | rfl | rfl | rfl | rfl | rfl <;>
    exact hdigit _ (Nat.mod_lt _ (by decide))

/-- What the `%f` verb prints: a fixed-point decimal with exactly six digits
after the point for a finite value, else `NaN`, `+Inf` or `-Inf`. -/
theorem fmtF64_form (x : F64) :
    (x.isFinite = true → FixedSix (fmtF64 x))
    ∧ (x.isFinite = false →
        fmtF64 x = "NaN".toList ∨ fmtF64 x = "+Inf".toList ∨ fmtF64 x = "-Inf".toList) := by
  cases x with
  | nan => exact ⟨fun h => absurd h (by simp [F64.isFinite]), fun _ => Or.inl rfl⟩
  | inf n =>
    refine ⟨fun h => absurd h (by simp [F64.isFinite]), fun _ => ?_⟩
    cases n
    · exact Or.inr (Or.inl rfl)
    · exact Or.inr (Or.inr rfl)
  | fin n m e =>
    refine ⟨fun _ => ?_, fun h => absurd h (by simp [F64.isFinite])⟩
    refine ⟨if n then ['-'] else [], Nat.toDigits 10 (microUnits m e / 1000000),
      sixDigits (microUnits m e), rfl, ?_, toDigits_ne_nil _, ?_, (sixDigits_spec _).1,
      (sixDigits_spec _).2⟩
    · cases n <;> simp
    · exact toDigitsCore_isDigit _ _ _ (by simp)

theorem ok_of_toOption {α : Type} (r : Except GoString α) (x : α)
    (h : r.toOption = some x) : r = .ok x := by
  cases r with
  | error e => simp [Except.toOption] at h
  | ok y =>
    simp only [Except.toOption, Option.some.injEq] at h
    rw [h]

theorem not_fixedSix_of_no_point (s : GoString) (h : '.' ∉ s) : ¬ FixedSix s := by
  rintro ⟨sign, ip, fp, hs, -⟩
  exact h (by rw [hs]; simp)

theorem generateOutput_full (w : World) (fuel : Nat) (input suffix : GoString)
    (hfull : ∀ path, w.pathExists path = true) :
    generateOutput w fuel input suffix = none :=
  generateOutputLoop_full w _ _ _ _ hfull fuel _ _ _

/-- C5 (amended). A `trim-end` request with probed duration greater than
`seconds` whose output path resolves runs, after the startup check, the probe
and the `os.Stat` calls of the resolution, `ffmpeg` with exactly the arguments
`["-i", input, "-c", "copy", "-t", F(duration - seconds), output]` in IEEE 754
arithmetic, `F` being the `%f` verb: a fixed-point decimal with exactly six
digits after the point for a finite value, else `NaN`, `+Inf` or `-Inf`.
Without an explicit output, `output` is `generateOutput(input, "_trim")`; that
search terminates when a candidate is free, and where it does not terminate no
command is planned.  With an explicit output, `output` is that output.
`strconv.ParseFloat` is the parameter `parse`. -/
theorem trimEnd_command (parse : GoString → Except GoString F64) (w : World) (fuel : Nat)
    (args : List GoString) (raw : GoString) (s d : F64)
    (hlen : 4 ≤ args.length) (hverb : args.getD 1 [] = "trim-end".toList)
    (hs : parse (args.getD 3 []) = .ok s)
    (hraw : w.output "ffprobe".toList (probeArgs (args.getD 2 [])) = .ok raw)
    (hd : parse (TrimSpace raw) = .ok d)
    (hgt : F64.lt s d = true) :
    (explicitOutput args 4 = [] →
        (∀ out stats,
          generateOutput w fuel (args.getD 2 []) "_trim".toList = some (out, stats) →
          RunsCommand w (main (ieee754 parse) w fuel args)
            ([Event.exec "ffprobe".toList (probeArgs (args.getD 2 []))] ++ stats)
            ["-i".toList, args.getD 2 [], "-c".toList, "copy".toList, "-t".toList,
              fmtF64 (F64.sub d s), out])
        ∧ (generateOutput w fuel (args.getD 2 []) "_trim".toList = none →
            main (ieee754 parse) w fuel args = none)
        ∧ ((∃ k, w.pathExists (candidate (args.getD 2 []) "_trim".toList k) = false) →
            ∃ fuel' o, main (ieee754 parse) w fuel' args = some o))
    ∧ (explicitOutput args 4 ≠ [] →
        RunsCommand w (main (ieee754 parse) w fuel args)
          [Event.exec "ffprobe".toList (probeArgs (args.getD 2 []))]
          ["-i".toList, args.getD 2 [], "-c".toList, "copy".toList, "-t".toList,
            fmtF64 (F64.sub d s), explicitOutput args 4])
    ∧ ((F64.sub d s).isFinite = true → FixedSix (fmtF64 (F64.sub d s)))
    ∧ ((F64.sub d s).isFinite = false →
        fmtF64 (F64.sub d s) = "NaN".toList ∨ fmtF64 (F64.sub d s) = "+Inf".toList
          ∨ fmtF64 (F64.sub d s) = "-Inf".toList) := by
  have hplan := planned_request (ieee754 parse) w fuel args (explicitOutput args 4)
    (args.getD 2 []) [Event.exec "ffprobe".toList (probeArgs (args.getD 2 []))]
    (fun out => ["-i".toList, args.getD 2 [], "-c".toList, "copy".toList, "-t".toList,
      fmtF64 (F64.sub d s), out])
    (fun fuel => by
      rw [dispatch_trimEnd (ieee754 parse) w fuel args (by omega) hverb]
      exact caseTrimEnd_planned (ieee754 parse) w fuel args raw s d hlen hs hraw hd
        ((ieee754 parse).lt_not_le s d hgt))
  exact ⟨hplan.1, hplan.2, (fmtF64_form _).1, (fmtF64_form _).2⟩

set_option maxRecDepth 8000 in
/-- C5 (amended), the scenario: input `clip.mp4` of duration 100,
`trim-end clip.mp4 10`, `clip_trim.mp4` absent. -/
theorem trimEnd_command_witness :
    RunsCommand (quietWorld [] "100.000000\n".toList)
        (main (ieee754 parseLiteral) (quietWorld [] "100.000000\n".toList) 1
          ["ezff".toList, "trim-end".toList, "clip.mp4".toList, "10".toList])
        ([Event.exec "ffprobe".toList (probeArgs "clip.mp4".toList)]
          ++ [Event.stat "clip_trim.mp4".toList])
        ["-i".toList, "clip.mp4".toList, "-c".toList, "copy".toList, "-t".toList,
          fmtF64 (F64.sub (F64.fin false 7036874417766400 (-46))
            (F64.fin false 5629499534213120 (-49))),
          "clip_trim.mp4".toList]
    ∧ FixedSix (fmtF64 (F64.sub (F64.fin false 7036874417766400 (-46))
        (F64.fin false 5629499534213120 (-49))))
    ∧ fmtF64 (F64.sub (F64.fin false 7036874417766400 (-46))
        (F64.fin false 5629499534213120 (-49))) = "90.000000".toList
    ∧ main (ieee754 parseLiteral) (quietWorld [] "100.000000\n".toList) 1
          ["ezff".toList, "trim-end".toList, "clip.mp4".toList, "10".toList]
        = some ⟨0, [Event.exec "ffmpeg".toList ["-version".toList],
            Event.exec "ffprobe".toList (probeArgs "clip.mp4".toList),
            Event.stat "clip_trim.mp4".toList,
            Event.exec "ffmpeg".toList
              ["-i".toList, "clip.mp4".toList, "-c".toList, "copy".toList, "-t".toList,
                "90.000000".toList, "clip_trim.mp4".toList]]⟩ :=
  ⟨((trimEnd_command parseLiteral (quietWorld [] "100.000000\n".toList) 1
      ["ezff".toList, "trim-end".toList, "clip.mp4".toList, "10".toList]
      "100.000000\n".toList (F64.fin false 5629499534213120 (-49))
      (F64.fin false 7036874417766400 (-46)) (by decide) (by decide)
      (ok_of_toOption _ _ (by decide)) rfl (ok_of_toOption _ _ (by decide))
      (by decide)).1 (by decide)).1
      "clip_trim.mp4".toList [Event.stat "clip_trim.mp4".toList] (by decide),
   (trimEnd_command parseLiteral (quietWorld [] "100.000000\n".toList) 1
      ["ezff".toList, "trim-end".toList, "clip.mp4".toList, "10".toList]
      "100.000000\n".toList (F64.fin false 5629499534213120 (-49))
      (F64.fin false 7036874417766400 (-46)) (by decide) (by decide)
      (ok_of_toOption _ _ (by decide)) rfl (ok_of_toOption _ _ (by decide))
      (by decide)).2.2.1 (by decide),
   by decide, by decide⟩

set_option maxRecDepth 8000 in
/-- C5 as stated fails twice.  `trim-end clip.mp4 -inf` with duration 100 has
duration greater than `seconds`, and its `-t` argument is `+Inf`, not a decimal
with six digits after the point.  And `trim-end clip.mp4 10` with duration 100
plans no command in a filesystem state where `os.Stat` finds every candidate:
the program never terminates. -/
theorem trimEnd_command_counterexample :
    (F64.lt (F64.inf true) (F64.fin false 7036874417766400 (-46)) = true
      ∧ main (ieee754 parseLiteral) (quietWorld [] "100.000000\n".toList) 1
          ["ezff".toList, "trim-end".toList, "clip.mp4".toList, "-inf".toList]
        = some ⟨0, [Event.exec "ffmpeg".toList ["-version".toList],
            Event.exec "ffprobe".toList (probeArgs "clip.mp4".toList),
            Event.stat "clip_trim.mp4".toList,
            Event.exec "ffmpeg".toList
              ["-i".toList, "clip.mp4".toList, "-c".toList, "copy".toList, "-t".toList,
                "+Inf".toList, "clip_trim.mp4".toList]]⟩
      ∧ ¬ FixedSix "+Inf".toList)
    ∧ ¬ ∃ fuel o, main (ieee754 parseLiteral) (fullWorld "100.000000\n".toList) fuel
        ["ezff".toList, "trim-end".toList, "clip.mp4".toList, "10".toList] = some o := by
  refine ⟨⟨by decide, by decide, not_fixedSix_of_no_point _ (by decide)⟩, ?_⟩
  rintro ⟨fuel, o, h⟩
  have hplan := planned_request (ieee754 parseLiteral) (fullWorld "100.000000\n".toList) fuel
    ["ezff".toList, "trim-end".toList, "clip.mp4".toList, "10".toList] [] "clip.mp4".toList
    [Event.exec "ffprobe".toList (probeArgs "clip.mp4".toList)]
    (fun out => ["-i".toList, "clip.mp4".toList, "-c".toList, "copy".toList, "-t".toList,
      fmtF64 (F64.sub (F64.fin false 7036874417766400 (-46))
        (F64.fin false 5629499534213120 (-49))), out])
    (fun fuel => by
      rw [dispatch_trimEnd _ _ fuel _ (by decide) (by decide)]
      exact caseTrimEnd_planned (ieee754 parseLiteral) (fullWorld "100.000000\n".toList) fuel
        ["ezff".toList, "trim-end".toList, "clip.mp4".toList, "10".toList]
        "100.000000\n".toList
        (F64.fin false 5629499534213120 (-49)) (F64.fin false 7036874417766400 (-46))
        (by decide) (ok_of_toOption (parseLiteral "10".toList) _ (by decide)) rfl
        (ok_of_toOption (parseLiteral (TrimSpace "100.000000\n".toList)) _ (by decide))
        (by decide))
  have hnone := (hplan.1 rfl).2.1 (generateOutput_full _ fuel _ _ (fun _ => rfl))
  rw [hnone] at h
  exact absurd h (by simp)

/-- C6 (amended). A `trim` request with probed duration greater than
`trimStart + trimEnd` whose output path resolves runs, after the startup
check, the probe and the `os.Stat` calls of the resolution, `ffmpeg` with
exactly the arguments
`["-ss", F(trimStart), "-i", input, "-t", F(t), "-c", "copy", output]`, where
`t` is `duration - (trimStart + trimEnd)` in IEEE 754 arithmetic, as the code
computes it, and `F` is the `%f` verb: a fixed-point decimal with exactly six
digits after the point for a finite value, else `NaN`, `+Inf` or `-Inf`.
Without an explicit output, `output` is `generateOutput(input, "_trim")`; that
search terminates when a candidate is free, and where it does not terminate no
command is planned.  With an explicit output, `output` is that output.
`strconv.ParseFloat` is the parameter `parse`. -/
theorem trim_command (parse : GoString → Except GoString F64) (w : World) (fuel : Nat)
    (args : List GoString) (raw : GoString) (a b d : F64)
    (hlen : 5 ≤ args.length) (hverb : args.getD 1 [] = "trim".toList)
    (ha : parse (args.getD 3 []) = .ok a)
    (hb : parse (args.getD 4 []) = .ok b)
    (hraw : w.output "ffprobe".toList (probeArgs (args.getD 2 [])) = .ok raw)
    (hd : parse (TrimSpace raw) = .ok d)
    (hgt : F64.lt (F64.add a b) d = true) :
    (explicitOutput args 5 = [] →
        (∀ out stats,
          generateOutput w fuel (args.getD 2 []) "_trim".toList = some (out, stats) →
          RunsCommand w (main (ieee754 parse) w fuel args)
            ([Event.exec "ffprobe".toList (probeArgs (args.getD 2 []))] ++ stats)
            ["-ss".toList, fmtF64 a, "-i".toList, args.getD 2 [], "-t".toList,
              fmtF64 (F64.sub d (F64.add a b)), "-c".toList, "copy".toList, out])
        ∧ (generateOutput w fuel (args.getD 2 []) "_trim".toList = none →
            main (ieee754 parse) w fuel args = none)
        ∧ ((∃ k, w.pathExists (candidate (args.getD 2 []) "_trim".toList k) = false) →
            ∃ fuel' o, main (ieee754 parse) w fuel' args = some o))
    ∧ (explicitOutput args 5 ≠ [] →
        RunsCommand w (main (ieee754 parse) w fuel args)
          [Event.exec "ffprobe".toList (probeArgs (args.getD 2 []))]
          ["-ss".toList, fmtF64 a, "-i".toList, args.getD 2 [], "-t".toList,
            fmtF64 (F64.sub d (F64.add a b)), "-c".toList, "copy".toList,
            explicitOutput args 5])
    ∧ (∀ x, x = a ∨ x = F64.sub d (F64.add a b) →
        (x.isFinite = true → FixedSix (fmtF64 x))
        ∧ (x.isFinite = false →
            fmtF64 x = "NaN".toList ∨ fmtF64 x = "+Inf".toList
              ∨ fmtF64 x = "-Inf".toList)) := by
  have hplan := planned_request (ieee754 parse) w fuel args (explicitOutput args 5)
    (args.getD 2 []) [Event.exec "ffprobe".toList (probeArgs (args.getD 2 []))]
    (fun out => ["-ss".toList, fmtF64 a, "-i".toList, args.getD 2 [], "-t".toList,
      fmtF64 (F64.sub d (F64.add a b)), "-c".toList, "copy".toList, out])
    (fun fuel => by
      rw [dispatch_trim (ieee754 parse) w fuel args (by omega) hverb]
      exact caseTrim_planned (ieee754 parse) w fuel args raw a b d hlen ha hb hraw hd
        ((ieee754 parse).lt_not_le (F64.add a b) d hgt))
  exact ⟨hplan.1, hplan.2, fun x _ => fmtF64_form x⟩

set_option maxRecDepth 8000 in
/-- C6 (amended), the scenario: `trim clip.mp4 5 10` with duration 100 seeks to
`5.000000` and limits the duration to `85.000000`. -/
theorem trim_command_witness :
    RunsCommand (quietWorld [] "100.000000\n".toList)
        (main (ieee754 parseLiteral) (quietWorld [] "100.000000\n".toList) 1
          ["ezff".toList, "trim".toList, "clip.mp4".toList, "5".toList, "10".toList])
        ([Event.exec "ffprobe".toList (probeArgs "clip.mp4".toList)]
          ++ [Event.stat "clip_trim.mp4".toList])
        ["-ss".toList, fmtF64 (F64.fin false 5629499534213120 (-50)), "-i".toList,
          "clip.mp4".toList, "-t".toList,
          fmtF64 (F64.sub (F64.fin false 7036874417766400 (-46))
            (F64.add (F64.fin false 5629499534213120 (-50))
              (F64.fin false 5629499534213120 (-49)))),
          "-c".toList, "copy".toList, "clip_trim.mp4".toList]
    ∧ fmtF64 (F64.fin false 5629499534213120 (-50)) = "5.000000".toList
    ∧ fmtF64 (F64.sub (F64.fin false 7036874417766400 (-46))
        (F64.add (F64.fin false 5629499534213120 (-50))
          (F64.fin false 5629499534213120 (-49)))) = "85.000000".toList
    ∧ main (ieee754 parseLiteral) (quietWorld [] "100.000000\n".toList) 1
          ["ezff".toList, "trim".toList, "clip.mp4".toList, "5".toList, "10".toList]
        = some ⟨0, [Event.exec "ffmpeg".toList ["-version".toList],
            Event.exec "ffprobe".toList (probeArgs "clip.mp4".toList),
            Event.stat "clip_trim.mp4".toList,
            Event.exec "ffmpeg".toList
              ["-ss".toList, "5.000000".toList, "-i".toList, "clip.mp4".toList, "-t".toList,
                "85.000000".toList, "-c".toList, "copy".toList, "clip_trim.mp4".toList]]⟩ :=
  ⟨((trim_command parseLiteral (quietWorld [] "100.000000\n".toList) 1
      ["ezff".toList, "trim".toList, "clip.mp4".toList, "5".toList, "10".toList]
      "100.000000\n".toList (F64.fin false 5629499534213120 (-50))
      (F64.fin false 5629499534213120 (-49)) (F64.fin false 7036874417766400 (-46))
      (by decide) (by decide)
      (ok_of_toOption (parseLiteral "5".toList) _ (by decide))
      (ok_of_toOption (parseLiteral "10".toList) _ (by decide)) rfl
      (ok_of_toOption (parseLiteral (TrimSpace "100.000000\n".toList)) _ (by decide))
      (by decide)).1 (by decide)).1
      "clip_trim.mp4".toList [Event.stat "clip_trim.mp4".toList] (by decide),
   by decide, by decide, by decide⟩

set_option maxRecDepth 8000 in
/-- C6 as stated fails three times.  `trim clip.mp4 9007199254740992 1` with
duration 9007199254740996 limits the duration to `4.000000`, the value of
`duration - (trimStart + trimEnd)` in `float64`, while
`duration - trimStart - trimEnd` is `3.000000` there.  `trim clip.mp4 -inf 0`
with duration 100 seeks to `-Inf` and limits the duration to `+Inf`, which are
not decimals with six digits after the point.  And `trim clip.mp4 5 10` with
duration 100 plans no command in a filesystem state where `os.Stat` finds
every candidate: the program never terminates. -/
theorem trim_command_counterexample :
    (main (ieee754 parseLiteral) (quietWorld [] "9007199254740996\n".toList) 1
          ["ezff".toList, "trim".toList, "clip.mp4".toList, "9007199254740992".toList,
            "1".toList]
        = some ⟨0, [Event.exec "ffmpeg".toList ["-version".toList],
            Event.exec "ffprobe".toList (probeArgs "clip.mp4".toList),
            Event.stat "clip_trim.mp4".toList,
            Event.exec "ffmpeg".toList
              ["-ss".toList, "9007199254740992.000000".toList, "-i".toList,
                "clip.mp4".toList, "-t".toList, "4.000000".toList, "-c".toList,
                "copy".toList, "clip_trim.mp4".toList]]⟩
      ∧ (parseLiteral "9007199254740996".toList).toOption
          = some (F64.fin false 4503599627370498 1)
      ∧ (parseLiteral "9007199254740992".toList).toOption
          = some (F64.fin false 4503599627370496 1)
      ∧ (parseLiteral "1".toList).toOption = some (F64.fin false 4503599627370496 (-52))
      ∧ fmtF64 (F64.sub (F64.sub (F64.fin false 4503599627370498 1)
          (F64.fin false 4503599627370496 1)) (F64.fin false 4503599627370496 (-52)))
          = "3.000000".toList)
    ∧ (main (ieee754 parseLiteral) (quietWorld [] "100.000000\n".toList) 1
          ["ezff".toList, "trim".toList, "clip.mp4".toList, "-inf".toList, "0".toList]
        = some ⟨0, [Event.exec "ffmpeg".toList ["-version".toList],
            Event.exec "ffprobe".toList (probeArgs "clip.mp4".toList),
            Event.stat "clip_trim.mp4".toList,
            Event.exec "ffmpeg".toList
              ["-ss".toList, "-Inf".toList, "-i".toList, "clip.mp4".toList, "-t".toList,
                "+Inf".toList, "-c".toList, "copy".toList, "clip_trim.mp4".toList]]⟩
      ∧ F64.lt (F64.add (F64.inf true) (F64.fin false 0 0))
          (F64.fin false 7036874417766400 (-46)) = true
      ∧ ¬ FixedSix "-Inf".toList ∧ ¬ FixedSix "+Inf".toList)
    ∧ ¬ ∃ fuel o, main (ieee754 parseLiteral) (fullWorld "100.000000\n".toList) fuel
        ["ezff".toList, "trim".toList, "clip.mp4".toList, "5".toList, "10".toList]
          = some o := by
  refine ⟨⟨by decide, by decide, by decide, by decide, by decide⟩,
    ⟨by decide, by decide, not_fixedSix_of_no_point _ (by decide),
      not_fixedSix_of_no_point _ (by decide)⟩, ?_⟩
  rintro ⟨fuel, o, h⟩
  have hplan := planned_request (ieee754 parseLiteral) (fullWorld "100.000000\n".toList) fuel
    ["ezff".toList, "trim".toList, "clip.mp4".toList, "5".toList, "10".toList] []
    "clip.mp4".toList [Event.exec "ffprobe".toList (probeArgs "clip.mp4".toList)]
    (fun out => ["-ss".toList, fmtF64 (F64.fin false 5629499534213120 (-50)), "-i".toList,
      "clip.mp4".toList, "-t".toList,
      fmtF64 (F64.sub (F64.fin false 7036874417766400 (-46))
        (F64.add (F64.fin false 5629499534213120 (-50))
          (F64.fin false 5629499534213120 (-49)))),
      "-c".toList, "copy".toList, out])
    (fun fuel => by
      rw [dispatch_trim _ _ fuel _ (by decide) (by decide)]
      exact caseTrim_planned (ieee754 parseLiteral) (fullWorld "100.000000\n".toList) fuel
        ["ezff".toList, "trim".toList, "clip.mp4".toList, "5".toList, "10".toList]
        "100.000000\n".toList (F64.fin false 5629499534213120 (-50))
        (F64.fin false 5629499534213120 (-49)) (F64.fin false 7036874417766400 (-46))
        (by decide) (ok_of_toOption (parseLiteral "5".toList) _ (by decide))
        (ok_of_toOption (parseLiteral "10".toList) _ (by decide)) rfl
        (ok_of_toOption (parseLiteral (TrimSpace "100.000000\n".toList)) _ (by decide))
        (by decide))
  have hnone := (hplan.1 rfl).2.1 (generateOutput_full _ fuel _ _ (fun _ => rfl))
  rw [hnone] at h
  exact absurd h (by simp)

/-- C7 (amended). A `trim-mid` request with `startCut < endCut` whose output
path resolves runs, after the startup check and the `os.Stat` calls of the
resolution (the duration is not probed), `ffmpeg` with exactly the arguments
`["-i", input, "-vf", V, "-af", A, output]`, where
`V = "select='not(between(t,S,E))',setpts=N/FRAME_RATE/TB"` and
`A = "aselect='not(between(t,S,E))',asetpts=N/SR/TB"` with `S = F(startCut)`,
`E = F(endCut)` and `F` the `%f` verb: a fixed-point decimal with exactly six
digits after the point for a finite value, else `NaN`, `+Inf` or `-Inf`.
Without an explicit output, `output` is `generateOutput(input, "_trim")`; that
search terminates when a candidate is free, and where it does not terminate no
command is planned.  With an explicit output, `output` is that output.
`strconv.ParseFloat` is the parameter `parse`. -/
theorem trimMid_command (parse : GoString → Except GoString F64) (w : World) (fuel : Nat)
    (args : List GoString) (s e : F64)
    (hlen : 5 ≤ args.length) (hverb : args.getD 1 [] = "trim-mid".toList)
    (hs : parse (args.getD 3 []) = .ok s)
    (he : parse (args.getD 4 []) = .ok e)
    (hlt : F64.lt s e = true) :
    (explicitOutput args 5 = [] →
        (∀ out stats,
          generateOutput w fuel (args.getD 2 []) "_trim".toList = some (out, stats) →
          RunsCommand w (main (ieee754 parse) w fuel args) stats
            ["-i".toList, args.getD 2 [], "-vf".toList,
              "select='not(between(t,".toList ++ fmtF64 s ++ ",".toList ++ fmtF64 e
                ++ "))',setpts=N/FRAME_RATE/TB".toList,
              "-af".toList,
              "aselect='not(between(t,".toList ++ fmtF64 s ++ ",".toList ++ fmtF64 e
                ++ "))',asetpts=N/SR/TB".toList,
              out])
        ∧ (generateOutput w fuel (args.getD 2 []) "_trim".toList = none →
            main (ieee754 parse) w fuel args = none)
        ∧ ((∃ k, w.pathExists (candidate (args.getD 2 []) "_trim".toList k) = false) →
            ∃ fuel' o, main (ieee754 parse) w fuel' args = some o))
    ∧ (explicitOutput args 5 ≠ [] →
        RunsCommand w (main (ieee754 parse) w fuel args) []
          ["-i".toList, args.getD 2 [], "-vf".toList,
            "select='not(between(t,".toList ++ fmtF64 s ++ ",".toList ++ fmtF64 e
              ++ "))',setpts=N/FRAME_RATE/TB".toList,
            "-af".toList,
            "aselect='not(between(t,".toList ++ fmtF64 s ++ ",".toList ++ fmtF64 e
              ++ "))',asetpts=N/SR/TB".toList,
            explicitOutput args 5])
    ∧ (∀ x, x = s ∨ x = e →
        (x.isFinite = true → FixedSix (fmtF64 x))
        ∧ (x.isFinite = false →
            fmtF64 x = "NaN".toList ∨ fmtF64 x = "+Inf".toList
              ∨ fmtF64 x = "-Inf".toList)) := by
  have hplan := planned_request (ieee754 parse) w fuel args (explicitOutput args 5)
    (args.getD 2 []) []
    (fun out => ["-i".toList, args.getD 2 [], "-vf".toList,
      "select='not(between(t,".toList ++ fmtF64 s ++ ",".toList ++ fmtF64 e
        ++ "))',setpts=N/FRAME_RATE/TB".toList,
      "-af".toList,
      "aselect='not(between(t,".toList ++ fmtF64 s ++ ",".toList ++ fmtF64 e
        ++ "))',asetpts=N/SR/TB".toList,
      out])
    (fun fuel => by
      rw [dispatch_trimMid (ieee754 parse) w fuel args (by omega) hverb]
      exact caseTrimMid_planned (ieee754 parse) w fuel args s e hlen hs he
        ((ieee754 parse).lt_not_ge s e hlt))
  exact ⟨hplan.1, hplan.2, fun x _ => fmtF64_form x⟩

set_option maxRecDepth 8000 in
/-- C7 (amended), the scenario: `trim-mid clip.mp4 30 40` with `clip_trim.mp4`
absent. -/
theorem trimMid_command_witness :
    RunsCommand (quietWorld [] [])
        (main (ieee754 parseLiteral) (quietWorld [] []) 1
          ["ezff".toList, "trim-mid".toList, "clip.mp4".toList, "30".toList, "40".toList])
        [Event.stat "clip_trim.mp4".toList]
        ["-i".toList, "clip.mp4".toList, "-vf".toList,
          "select='not(between(t,".toList ++ fmtF64 (F64.fin false 8444249301319680 (-48))
            ++ ",".toList ++ fmtF64 (F64.fin false 5629499534213120 (-47))
            ++ "))',setpts=N/FRAME_RATE/TB".toList,
          "-af".toList,
          "aselect='not(between(t,".toList ++ fmtF64 (F64.fin false 8444249301319680 (-48))
            ++ ",".toList ++ fmtF64 (F64.fin false 5629499534213120 (-47))
            ++ "))',asetpts=N/SR/TB".toList,
          "clip_trim.mp4".toList]
    ∧ fmtF64 (F64.fin false 8444249301319680 (-48)) = "30.000000".toList
    ∧ fmtF64 (F64.fin false 5629499534213120 (-47)) = "40.000000".toList
    ∧ main (ieee754 parseLiteral) (quietWorld [] []) 1
        ["ezff".toList, "trim-mid".toList, "clip.mp4".toList, "30".toList, "40".toList]
      = some ⟨0, [Event.exec "ffmpeg".toList ["-version".toList],
          Event.stat "clip_trim.mp4".toList,
          Event.exec "ffmpeg".toList
            ["-i".toList, "clip.mp4".toList, "-vf".toList,
              "select='not(between(t,30.000000,40.000000))',setpts=N/FRAME_RATE/TB".toList,
              "-af".toList,
              "aselect='not(between(t,30.000000,40.000000))',asetpts=N/SR/TB".toList,
              "clip_trim.mp4".toList]]⟩ :=
  ⟨((trimMid_command parseLiteral (quietWorld [] []) 1
      ["ezff".toList, "trim-mid".toList, "clip.mp4".toList, "30".toList, "40".toList]
      (F64.fin false 8444249301319680 (-48)) (F64.fin false 5629499534213120 (-47))
      (by decide) (by decide)
      (ok_of_toOption (parseLiteral "30".toList) _ (by decide))
      (ok_of_toOption (parseLiteral "40".toList) _ (by decide))
      (by decide)).1 (by decide)).1
      "clip_trim.mp4".toList [Event.stat "clip_trim.mp4".toList] (by decide),
   by decide, by decide, by decide⟩

set_option maxRecDepth 8000 in
/-- C7 as stated fails twice.  `trim-mid clip.mp4 0 inf` has
`startCut < endCut`, and its filters hold the bound `+Inf`, not a decimal with
six digits after the point.  And `trim-mid clip.mp4 30 40` plans no command in
a filesystem state where `os.Stat` finds every candidate: the program never
terminates. -/
theorem trimMid_command_counterexample :
    (F64.lt (F64.fin false 0 0) (F64.inf false) = true
      ∧ main (ieee754 parseLiteral) (quietWorld [] []) 1
          ["ezff".toList, "trim-mid".toList, "clip.mp4".toList, "0".toList, "inf".toList]
        = some ⟨0, [Event.exec "ffmpeg".toList ["-version".toList],
            Event.stat "clip_trim.mp4".toList,
            Event.exec "ffmpeg".toList
              ["-i".toList, "clip.mp4".toList, "-vf".toList,
                "select='not(between(t,0.000000,+Inf))',setpts=N/FRAME_RATE/TB".toList,
                "-af".toList,
                "aselect='not(between(t,0.000000,+Inf))',asetpts=N/SR/TB".toList,
                "clip_trim.mp4".toList]]⟩
      ∧ ¬ FixedSix "+Inf".toList)
    ∧ ¬ ∃ fuel o, main (ieee754 parseLiteral) (fullWorld []) fuel
        ["ezff".toList, "trim-mid".toList, "clip.mp4".toList, "30".toList, "40".toList]
          = some o := by
  refine ⟨⟨by decide, by decide, not_fixedSix_of_no_point _ (by decide)⟩, ?_⟩
  rintro ⟨fuel, o, h⟩
  have hplan := planned_request (ieee754 parseLiteral) (fullWorld []) fuel
    ["ezff".toList, "trim-mid".toList, "clip.mp4".toList, "30".toList, "40".toList] []
    "clip.mp4".toList []
    (fun out => ["-i".toList, "clip.mp4".toList, "-vf".toList,
      "select='not(between(t,".toList ++ fmtF64 (F64.fin false 8444249301319680 (-48))
        ++ ",".toList ++ fmtF64 (F64.fin false 5629499534213120 (-47))
        ++ "))',setpts=N/FRAME_RATE/TB".toList,
      "-af".toList,
      "aselect='not(between(t,".toList ++ fmtF64 (F64.fin false 8444249301319680 (-48))
        ++ ",".toList ++ fmtF64 (F64.fin false 5629499534213120 (-47))
        ++ "))',asetpts=N/SR/TB".toList,
      out])
    (fun fuel => by
      rw [dispatch_trimMid _ _ fuel _ (by decide) (by decide)]
      exact caseTrimMid_planned (ieee754 parseLiteral) (fullWorld []) fuel
        ["ezff".toList, "trim-mid".toList, "clip.mp4".toList, "30".toList, "40".toList]
        (F64.fin false 8444249301319680 (-48)) (F64.fin false 5629499534213120 (-47))
        (by decide) (ok_of_toOption (parseLiteral "30".toList) _ (by decide))
        (ok_of_toOption (parseLiteral "40".toList) _ (by decide)) (by decide))
  have hnone := (hplan.1 rfl).2.1 (generateOutput_full _ fuel _ _ (fun _ => rfl))
  rw [hnone] at h
  exact absurd h (by simp)

/-! ### Every run is a rejection or a planned command -/

theorem outputIndex_trimStart (args : List GoString)
    (h : args.getD 1 [] = "trim-start".toList) : outputIndex args = 4 := by
  simp only [outputIndex, h, beq_self_eq_true, Bool.true_or, if_true]

theorem outputIndex_trimEnd (args : List GoString)
    (h : args.getD 1 [] = "trim-end".toList) : outputIndex args = 4 := by
  simp only [outputIndex, h, beq_self_eq_true, Bool.or_true, if_true]

theorem outputIndex_trimMid (args : List GoString)
    (h : args.getD 1 [] = "trim-mid".toList) : outputIndex args = 5 := by
  simp only [outputIndex, h, verbs_distinct.2.1, verbs_distinct.2.2.1, Bool.or_self,
    Bool.false_eq_true, if_false]

theorem outputIndex_trim (args : List GoString)
    (h : args.getD 1 [] = "trim".toList) : outputIndex args = 5 := by
  simp only [outputIndex, h, verbs_distinct.2.2.2.1, verbs_distinct.2.2.2.2.1, Bool.or_self,
    Bool.false_eq_true, if_false]

theorem caseTrimStart_cases (M : Float64Ops) (w : World) (fuel : Nat) (args : List GoString)
    (hverb : args.getD 1 [] = "trim-start".toList) (o : Outcome)
    (h : caseTrimStart M w fuel args = some o) : Rejected args o ∨ Planned w fuel args o := by
  simp only [caseTrimStart] at h
  split at h
  · exact Or.inl ⟨[], _, (Option.some.inj h).symm, Or.inl rfl⟩
  · split at h
    · exact Or.inl ⟨[], _, (Option.some.inj h).symm, Or.inl rfl⟩
    · split at h
      · exact absurd h (by simp)
      · rename_i out stats hres
        refine Or.inr ⟨[], stats, _, out, (Option.some.inj h).symm, Or.inl rfl, ?_, rfl,
          by simp⟩
        rw [outputIndex_trimStart args hverb]
        exact hres

theorem caseTrimEnd_cases (M : Float64Ops) (w : World) (fuel : Nat) (args : List GoString)
    (hverb : args.getD 1 [] = "trim-end".toList) (o : Outcome)
    (h : caseTrimEnd M w fuel args = some o) : Rejected args o ∨ Planned w fuel args o := by
  simp only [caseTrimEnd] at h
  split at h
  · exact Or.inl ⟨[], _, (Option.some.inj h).symm, Or.inl rfl⟩
  · split at h
    · exact Or.inl ⟨[], _, (Option.some.inj h).symm, Or.inl rfl⟩
    · split at h
      · rename_i err probe hdur
        have hp : probe = _ := (congrArg Prod.snd hdur).symm.trans (getDuration_trace M w _)
        exact Or.inl ⟨probe, _, (Option.some.inj h).symm, Or.inr hp⟩
      · rename_i dur probe hdur
        have hp : probe = _ := (congrArg Prod.snd hdur).symm.trans (getDuration_trace M w _)
        split at h
        · exact Or.inl ⟨probe, _, (Option.some.inj h).symm, Or.inr hp⟩
        · split at h
          · exact absurd h (by simp)
          · rename_i out stats hres
            refine Or.inr ⟨probe, stats, _, out, (Option.some.inj h).symm, Or.inr hp, ?_, rfl,
              by simp⟩
            rw [outputIndex_trimEnd args hverb]
            exact hres

theorem caseTrimMid_cases (M : Float64Ops) (w : World) (fuel : Nat) (args : List GoString)
    (hverb : args.getD 1 [] = "trim-mid".toList) (o : Outcome)
    (h : caseTrimMid M w fuel args = some o) : Rejected args o ∨ Planned w fuel args o := by
  simp only [caseTrimMid] at h
  split at h
  · exact Or.inl ⟨[], _, (Option.some.inj h).symm, Or.inl rfl⟩
  · split at h
    · exact Or.inl ⟨[], _, (Option.some.inj h).symm, Or.inl rfl⟩
    · split at h
      · exact Or.inl ⟨[], _, (Option.some.inj h).symm, Or.inl rfl⟩
      · split at h
        · exact Or.inl ⟨[], _, (Option.some.inj h).symm, Or.inl rfl⟩
        · split at h
          · exact absurd h (by simp)
          · rename_i out stats hres
            refine Or.inr ⟨[], stats, _, out, (Option.some.inj h).symm, Or.inl rfl, ?_, rfl,
              by simp⟩
            rw [outputIndex_trimMid args hverb]
            exact hres

theorem caseTrim_cases (M : Float64Ops) (w : World) (fuel : Nat) (args : List GoString)
    (hverb : args.getD 1 [] = "trim".toList) (o : Outcome)
    (h : caseTrim M w fuel args = some o) : Rejected args o ∨ Planned w fuel args o := by
  simp only [caseTrim] at h
  split at h
  · exact Or.inl ⟨[], _, (Option.some.inj h).symm, Or.inl rfl⟩
  · split at h
    · exact Or.inl ⟨[], _, (Option.some.inj h).symm, Or.inl rfl⟩
    · split at h
      · exact Or.inl ⟨[], _, (Option.some.inj h).symm, Or.inl rfl⟩
      · split at h
        · rename_i err probe hdur
          have hp : probe = _ := (congrArg Prod.snd hdur).symm.trans (getDuration_trace M w _)
          exact Or.inl ⟨probe, _, (Option.some.inj h).symm, Or.inr hp⟩
        · rename_i dur probe hdur
          have hp : probe = _ := (congrArg Prod.snd hdur).symm.trans (getDuration_trace M w _)
          split at h
          · exact Or.inl ⟨probe, _, (Option.some.inj h).symm, Or.inr hp⟩
          · split at h
            · exact absurd h (by simp)
            · rename_i out stats hres
              refine Or.inr ⟨probe, stats, _, out, (Option.some.inj h).symm, Or.inr hp, ?_,
                rfl, by simp⟩
              rw [outputIndex_trim args hverb]
              exact hres

theorem dispatch_cases (M : Float64Ops) (w : World) (fuel : Nat) (args : List GoString)
    (o : Outcome) (h : dispatch M w fuel args = some o) :
    Rejected args o ∨ Planned w fuel args o := by
  by_cases hlen : args.length < 2
  · simp only [dispatch, hlen, if_true, Option.some.injEq] at h
    exact Or.inl ⟨[], usageText, h.symm, Or.inl rfl⟩
  have hlen2 : 2 ≤ args.length := by omega
  by_cases h1 : args.getD 1 [] = "trim-start".toList
  · rw [dispatch_trimStart M w fuel args hlen2 h1] at h
    exact caseTrimStart_cases M w fuel args h1 o h
  by_cases h2 : args.getD 1 [] = "trim-end".toList
  · rw [dispatch_trimEnd M w fuel args hlen2 h2] at h
    exact caseTrimEnd_cases M w fuel args h2 o h
  by_cases h3 : args.getD 1 [] = "trim-mid".toList
  · rw [dispatch_trimMid M w fuel args hlen2 h3] at h
    exact caseTrimMid_cases M w fuel args h3 o h
  by_cases h4 : args.getD 1 [] = "trim".toList
  · rw [dispatch_trim M w fuel args hlen2 h4] at h
    exact caseTrim_cases M w fuel args h4 o h
  · unfold dispatch at h
    rw [if_neg hlen] at h
    simp only [beq_eq_false_iff_ne.mpr h1, beq_eq_false_iff_ne.mpr h2,
      beq_eq_false_iff_ne.mpr h3, beq_eq_false_iff_ne.mpr h4, Bool.false_eq_true, if_false,
      Option.some.injEq] at h
    exact Or.inl ⟨[], usageText, h.symm, Or.inl rfl⟩


/-! ### Explicit output paths -/

theorem explicitOutput_eq (args : List GoString) (i : Nat) (p : GoString)
    (hlen : i + 1 < args.length) (hflag : args.getD i [] = "--output".toList)
    (hp : args.getD (i + 1) [] = p) : explicitOutput args i = p := by
  unfold explicitOutput
  rw [if_pos]
  · exact hp
  · simp only [hflag, beq_self_eq_true, Bool.and_true, decide_eq_true_eq]
    omega

theorem dispatch_congr (M : Float64Ops) (w w' : World) (fuel fuel' : Nat)
    (args : List GoString) (hrun : w'.run = w.run) (hout : w'.output = w.output)
    (hres : resolveOutput w' fuel' (explicitOutput args (outputIndex args)) (args.getD 2 [])
      = resolveOutput w fuel (explicitOutput args (outputIndex args)) (args.getD 2 [])) :
    dispatch M w' fuel' args = dispatch M w fuel args := by
  obtain ⟨r, o, pe⟩ := w
  obtain ⟨r', o', pe'⟩ := w'
  simp only at hrun hout
  subst hrun hout
  by_cases hlen : args.length < 2
  · simp only [dispatch, hlen, if_true]
  have hlen2 : 2 ≤ args.length := by omega
  by_cases h1 : args.getD 1 [] = "trim-start".toList
  · rw [dispatch_trimStart M _ _ args hlen2 h1, dispatch_trimStart M _ _ args hlen2 h1]
    rw [outputIndex_trimStart args h1] at hres
    simp only [caseTrimStart, finishWith, runCmd, hres]
  by_cases h2 : args.getD 1 [] = "trim-end".toList
  · rw [dispatch_trimEnd M _ _ args hlen2 h2, dispatch_trimEnd M _ _ args hlen2 h2]
    rw [outputIndex_trimEnd args h2] at hres
    simp only [caseTrimEnd, getDuration, finishWith, runCmd, hres]
  by_cases h3 : args.getD 1 [] = "trim-mid".toList
  · rw [dispatch_trimMid M _ _ args hlen2 h3, dispatch_trimMid M _ _ args hlen2 h3]
    rw [outputIndex_trimMid args h3] at hres
    simp only [caseTrimMid, finishWith, runCmd, hres]
  by_cases h4 : args.getD 1 [] = "trim".toList
  · rw [dispatch_trim M _ _ args hlen2 h4, dispatch_trim M _ _ args hlen2 h4]
    rw [outputIndex_trim args h4] at hres
    simp only [caseTrim, getDuration, finishWith, runCmd, hres]
  · simp only [dispatch, hlen, beq_eq_false_iff_ne.mpr h1, beq_eq_false_iff_ne.mpr h2,
      beq_eq_false_iff_ne.mpr h3, beq_eq_false_iff_ne.mpr h4, Bool.false_eq_true, if_false]

theorem dispatch_isSome (M : Float64Ops) (w : World) (fuel : Nat) (args : List GoString)
    (out : GoString) (stats : List Event)
    (hres : resolveOutput w fuel (explicitOutput args (outputIndex args)) (args.getD 2 [])
      = some (out, stats)) :
    ∃ o, dispatch M w fuel args = some o := by
  by_cases hlen : args.length < 2
  · exact ⟨usage, by simp only [dispatch, hlen, if_true]⟩
  have hlen2 : 2 ≤ args.length := by omega
  by_cases h1 : args.getD 1 [] = "trim-start".toList
  · rw [dispatch_trimStart M _ _ args hlen2 h1]
    rw [outputIndex_trimStart args h1] at hres
    simp only [caseTrimStart, hres]
    split
    · exact ⟨_, rfl⟩
    · split <;> exact ⟨_, rfl⟩
  by_cases h2 : args.getD 1 [] = "trim-end".toList
  · rw [dispatch_trimEnd M _ _ args hlen2 h2]
    rw [outputIndex_trimEnd args h2] at hres
    simp only [caseTrimEnd, hres]
    split
    · exact ⟨_, rfl⟩
    · split
      · exact ⟨_, rfl⟩
      · split
        · exact ⟨_, rfl⟩
        · split <;> exact ⟨_, rfl⟩
  by_cases h3 : args.getD 1 [] = "trim-mid".toList
  · rw [dispatch_trimMid M _ _ args hlen2 h3]
    rw [outputIndex_trimMid args h3] at hres
    simp only [caseTrimMid, hres]
    split
    · exact ⟨_, rfl⟩
    · split
      · exact ⟨_, rfl⟩
      · split
        · exact ⟨_, rfl⟩
        · split <;> exact ⟨_, rfl⟩
  by_cases h4 : args.getD 1 [] = "trim".toList
  · rw [dispatch_trim M _ _ args hlen2 h4]
    rw [outputIndex_trim args h4] at hres
    simp only [caseTrim, hres]
    split
    · exact ⟨_, rfl⟩
    · split
      · exact ⟨_, rfl⟩
      · split
        · exact ⟨_, rfl⟩
        · split
          · exact ⟨_, rfl⟩
          · split <;> exact ⟨_, rfl⟩
  · exact ⟨usage, by
      simp only [dispatch, hlen, beq_eq_false_iff_ne.mpr h1, beq_eq_false_iff_ne.mpr h2,
        beq_eq_false_iff_ne.mpr h3, beq_eq_false_iff_ne.mpr h4, Bool.false_eq_true, if_false]⟩


theorem checkFFmpeg_trace (w : World) :
    ∀ e ∈ (checkFFmpeg w).2,
      e = Event.exec "ffmpeg".toList ["-version".toList] ∨ ∃ text, e = Event.stderr text := by
  intro e he
  unfold checkFFmpeg at he
  split at he
  · simp only [List.mem_cons, List.mem_singleton, List.not_mem_nil, or_false] at he
    rcases he with he | he
    · exact Or.inl he
    · exact Or.inr ⟨_, he⟩
  · simp only [List.mem_singleton] at he
    exact Or.inl he

theorem main_eq_some (M : Float64Ops) (w : World) (fuel : Nat) (args : List GoString)
    (o : Outcome) (h : main M w fuel args = some o) :
    ∃ o', dispatch M w fuel args = some o'
      ∧ o = ⟨o'.exit, (checkFFmpeg w).2 ++ o'.trace⟩ := by
  unfold main at h
  cases hd : dispatch M w fuel args with
  | none => rw [hd] at h; exact absurd h (by simp)
  | some o' =>
    rw [hd] at h
    exact ⟨o', rfl, (Option.some.inj h).symm⟩

/-- C4 (amended). In every mode, when `--output p` with a non-empty `p` stands
right after the fixed arguments, the run is the same in every filesystem state
and for every bound on the search (`os.Stat` is never called), and every
`ffmpeg` command it runs besides the startup check has `p` as its last
argument. -/
theorem explicit_output_verbatim (M : Float64Ops) (w : World) (fuel : Nat)
    (args : List GoString) (p : GoString)
    (hlen : outputIndex args + 1 < args.length)
    (hflag : args.getD (outputIndex args) [] = "--output".toList)
    (hp : args.getD (outputIndex args + 1) [] = p) (hne : p ≠ []) :
    (∀ (w' : World) (fuel' : Nat), w'.run = w.run → w'.output = w.output →
        main M w' fuel' args = main M w fuel args)
    ∧ ∃ o, main M w fuel args = some o
        ∧ (∀ path, Event.stat path ∉ o.trace)
        ∧ (∀ cmd, Event.exec "ffmpeg".toList cmd ∈ o.trace →
            cmd = ["-version".toList] ∨ cmd.getLast? = some p) := by
  have hexp : explicitOutput args (outputIndex args) = p :=
    explicitOutput_eq args _ p hlen hflag hp
  have hres : ∀ (w : World) (fuel : Nat),
      resolveOutput w fuel (explicitOutput args (outputIndex args)) (args.getD 2 [])
        = some (p, []) := by
    intro w fuel
    rw [hexp]
    exact resolveOutput_explicit w fuel p _ hne
  constructor
  · intro w' fuel' hrun hout
    have hd := dispatch_congr M w w' fuel fuel' args hrun hout
      ((hres w' fuel').trans (hres w fuel).symm)
    simp only [main, checkFFmpeg, hrun, hd]
  · obtain ⟨o', ho'⟩ := dispatch_isSome M w fuel args p [] (hres w fuel)
    refine ⟨_, main_of_dispatch M w fuel args o' ho', ?_, ?_⟩
    · intro path hmem
      simp only [List.mem_append] at hmem
      rcases hmem with hmem | hmem
      · rcases checkFFmpeg_trace w _ hmem with h | ⟨t, h⟩ <;> exact absurd h (by simp)
      · rcases dispatch_cases M w fuel args o' ho' with ⟨pre, text, rfl, hpre⟩ |
          ⟨probe, stats, cmd, out, rfl, hprobe, hr, _, _⟩
        · rcases hpre with rfl | rfl <;> simp at hmem
        · rw [hres w fuel] at hr
          obtain ⟨-, rfl⟩ : p = out ∧ [] = stats := by simpa using hr
          rcases finishWith_shape w (probe ++ []) cmd with ⟨_, hf⟩ | ⟨err, _, hf⟩ <;>
            rw [hf] at hmem <;> rcases hprobe with rfl | rfl <;> simp at hmem
    · intro cmd hmem
      simp only [List.mem_append] at hmem
      rcases hmem with hmem | hmem
      · rcases checkFFmpeg_trace w _ hmem with h | ⟨t, h⟩
        · left
          simpa using h
        · exact absurd h (by simp)
      · right
        have hname : "ffmpeg".toList ≠ "ffprobe".toList := by decide
        rcases dispatch_cases M w fuel args o' ho' with ⟨pre, text, rfl, hpre⟩ |
          ⟨probe, stats, cmd0, out, rfl, hprobe, hr, hlast, _⟩
        · rcases hpre with rfl | rfl
          · simp at hmem
          · simp only [List.singleton_append, List.mem_cons, Event.exec.injEq,
              List.mem_singleton, reduceCtorEq, or_false, List.not_mem_nil] at hmem
            exact absurd hmem.1 hname
        · rw [hres w fuel] at hr
          obtain ⟨rfl, rfl⟩ : p = out ∧ [] = stats := by simpa using hr
          have hcmd : cmd = cmd0 := by
            rcases finishWith_shape w (probe ++ []) cmd0 with ⟨_, hf⟩ | ⟨err, _, hf⟩ <;>
              rw [hf] at hmem <;> rcases hprobe with rfl | rfl <;>
              simp only [List.append_nil, List.nil_append, List.singleton_append,
                List.mem_cons, Event.exec.injEq, List.mem_singleton, reduceCtorEq,
                or_false, false_or, true_and, List.not_mem_nil] at hmem
            · exact hmem
            · rcases hmem with h | h
              · exact absurd h.1 hname
              · exact h
            · exact hmem
            · rcases hmem with h | h
              · exact absurd h.1 hname
              · exact h
          rw [hcmd]
          exact hlast

/-- C4 (amended), at a concrete run: `trim-start clip.mp4 5 --output out.mp4`
while `out.mp4` already exists runs `ffmpeg ... out.mp4`. -/
theorem explicit_output_verbatim_witness :
    ((∀ (w' : World) (fuel' : Nat),
        w'.run = (quietWorld ["out.mp4".toList] []).run →
        w'.output = (quietWorld ["out.mp4".toList] []).output →
        main wholeSeconds w' fuel'
            ["ezff".toList, "trim-start".toList, "clip.mp4".toList, "5".toList,
              "--output".toList, "out.mp4".toList]
          = main wholeSeconds (quietWorld ["out.mp4".toList] []) 0
            ["ezff".toList, "trim-start".toList, "clip.mp4".toList, "5".toList,
              "--output".toList, "out.mp4".toList])
      ∧ ∃ o, main wholeSeconds (quietWorld ["out.mp4".toList] []) 0
            ["ezff".toList, "trim-start".toList, "clip.mp4".toList, "5".toList,
              "--output".toList, "out.mp4".toList] = some o
          ∧ (∀ path, Event.stat path ∉ o.trace)
          ∧ (∀ cmd, Event.exec "ffmpeg".toList cmd ∈ o.trace →
              cmd = ["-version".toList] ∨ cmd.getLast? = some "out.mp4".toList))
    ∧ main wholeSeconds (quietWorld ["out.mp4".toList] []) 0
          ["ezff".toList, "trim-start".toList, "clip.mp4".toList, "5".toList,
            "--output".toList, "out.mp4".toList]
        = some ⟨0, [Event.exec "ffmpeg".toList ["-version".toList],
            Event.exec "ffmpeg".toList
              ["-ss".toList, "5.000000".toList, "-i".toList, "clip.mp4".toList, "-c".toList,
                "copy".toList, "out.mp4".toList]]⟩ :=
  ⟨explicit_output_verbatim wholeSeconds (quietWorld ["out.mp4".toList] []) 0
      ["ezff".toList, "trim-start".toList, "clip.mp4".toList, "5".toList,
        "--output".toList, "out.mp4".toList] "out.mp4".toList
      (by decide) (by decide) (by decide) (by decide),
   by decide⟩

/-- C4 as stated fails for the empty path: with `--output ""` the last
argument of the command is not the empty string but the generated default, and
it changes with the filesystem state. -/
theorem explicit_output_empty_counterexample :
    main wholeSeconds (quietWorld [] []) 2
        ["ezff".toList, "trim-start".toList, "clip.mp4".toList, "5".toList,
          "--output".toList, []]
      = some ⟨0, [Event.exec "ffmpeg".toList ["-version".toList],
          Event.stat "clip_trim.mp4".toList,
          Event.exec "ffmpeg".toList
            ["-ss".toList, "5.000000".toList, "-i".toList, "clip.mp4".toList, "-c".toList,
              "copy".toList, "clip_trim.mp4".toList]]⟩
    ∧ main wholeSeconds (quietWorld ["clip_trim.mp4".toList] []) 2
        ["ezff".toList, "trim-start".toList, "clip.mp4".toList, "5".toList,
          "--output".toList, []]
      = some ⟨0, [Event.exec "ffmpeg".toList ["-version".toList],
          Event.stat "clip_trim.mp4".toList, Event.stat "clip_trim1.mp4".toList,
          Event.exec "ffmpeg".toList
            ["-ss".toList, "5.000000".toList, "-i".toList, "clip.mp4".toList, "-c".toList,
              "copy".toList, "clip_trim1.mp4".toList]]⟩ := by
  decide


/-! ### Exit status -/

/-- C9 (amended). Whenever the program terminates, its exit status is 0 or 1,
and it is 0 exactly when the run ends with `ffmpeg` run on a planned command
and returning no error; so it is 1 after a usage error, a number that does not
parse, a validation failure, a probe failure and a failing `ffmpeg`.  The
program terminates when an explicit non-empty output is given or some
candidate of the default output name is free. -/
theorem exit_status (M : Float64Ops) (w : World) (args : List GoString) :
    (∀ fuel o, main M w fuel args = some o →
        (o.exit = 0 ∨ o.exit = 1)
        ∧ (o.exit = 0 ↔ ∃ pre cmd,
            o.trace = (checkFFmpeg w).2 ++ (pre ++ [Event.exec "ffmpeg".toList cmd])
              ∧ w.run "ffmpeg".toList cmd = none))
    ∧ ((explicitOutput args (outputIndex args) ≠ []
          ∨ ∃ k, w.pathExists (candidate (args.getD 2 []) "_trim".toList k) = false) →
        ∃ fuel o, main M w fuel args = some o) := by
  constructor
  · intro fuel o h
    obtain ⟨o', ho', rfl⟩ := main_eq_some M w fuel args o h
    have hlast : ∀ (pre pre' : List Event) (text : GoString) (cmd : List GoString),
        (checkFFmpeg w).2 ++ (pre ++ [Event.stderr text])
          ≠ (checkFFmpeg w).2 ++ (pre' ++ [Event.exec "ffmpeg".toList cmd]) := by
      intro pre pre' text cmd heq
      have := congrArg List.getLast? (List.append_cancel_left heq)
      simp at this
    rcases dispatch_cases M w fuel args o' ho' with ⟨pre, text, rfl, _⟩ |
      ⟨probe, stats, cmd, out, rfl, _, _, _, _⟩
    · refine ⟨Or.inr rfl, ⟨fun h0 => absurd h0 (by simp), ?_⟩⟩
      rintro ⟨pre', cmd, htr, _⟩
      exact absurd htr (hlast _ _ _ _)
    · rcases finishWith_shape w (probe ++ stats) cmd with ⟨hrun, hf⟩ | ⟨err, hrun, hf⟩
      · rw [hf]
        exact ⟨Or.inl rfl, ⟨fun _ => ⟨probe ++ stats, cmd, rfl, hrun⟩, fun _ => rfl⟩⟩
      · rw [hf]
        refine ⟨Or.inr rfl, ⟨fun h0 => absurd h0 (by simp), ?_⟩⟩
        rintro ⟨pre', cmd', htr, _⟩
        have htr' : (checkFFmpeg w).2 ++ ((probe ++ stats ++ [Event.exec "ffmpeg".toList cmd])
            ++ [Event.stderr ("Error running ".toList ++ "ffmpeg".toList ++ ": ".toList ++ err
              ++ "\n".toList)])
            = (checkFFmpeg w).2 ++ (pre' ++ [Event.exec "ffmpeg".toList cmd']) := by
          simpa using htr
        exact absurd htr' (hlast _ _ _ _)
  · intro h
    obtain ⟨fuel, out, stats, hres⟩ := resolveOutput_isSome w _ (args.getD 2 []) h
    obtain ⟨o, ho⟩ := dispatch_isSome M w fuel args out stats hres
    exact ⟨fuel, _, main_of_dispatch M w fuel args o ho⟩

/-- C9 (amended), at a concrete run: `trim-start clip.mp4 5` with
`clip_trim.mp4` absent terminates with exit status 0. -/
theorem exit_status_witness :
    (∃ fuel o, main wholeSeconds (quietWorld [] []) fuel
        ["ezff".toList, "trim-start".toList, "clip.mp4".toList, "5".toList] = some o)
    ∧ main wholeSeconds (quietWorld [] []) 1
        ["ezff".toList, "trim-start".toList, "clip.mp4".toList, "5".toList]
      = some ⟨0, [Event.exec "ffmpeg".toList ["-version".toList],
          Event.stat "clip_trim.mp4".toList,
          Event.exec "ffmpeg".toList
            ["-ss".toList, "5.000000".toList, "-i".toList, "clip.mp4".toList, "-c".toList,
              "copy".toList, "clip_trim.mp4".toList]]⟩ :=
  ⟨(exit_status wholeSeconds (quietWorld [] [])
      ["ezff".toList, "trim-start".toList, "clip.mp4".toList, "5".toList]).2
      (Or.inr ⟨0, by decide⟩),
   by decide⟩

/-- C9 as stated fails in a filesystem state where `os.Stat` finds every
candidate: `trim-start clip.mp4 5` then never terminates, so the program has no
exit status, neither 0 nor 1. -/
theorem exit_status_counterexample :
    ¬ ∃ fuel o, main wholeSeconds (fullWorld [])  fuel
        ["ezff".toList, "trim-start".toList, "clip.mp4".toList, "5".toList] = some o := by
  rintro ⟨fuel, o, h⟩
  obtain ⟨o', ho', -⟩ := main_eq_some _ _ _ _ o h
  rw [dispatch_trimStart _ _ _ _ (by decide) (by decide), caseTrimStart,
    if_neg (by decide)] at ho'
  have hparse : wholeSeconds.parseFloat
      (["ezff".toList, "trim-start".toList, "clip.mp4".toList, "5".toList].getD 3 [])
      = .ok (5 : Int) := rfl
  have hexp : explicitOutput
      ["ezff".toList, "trim-start".toList, "clip.mp4".toList, "5".toList] 4 = [] := by decide
  have hnone : ∀ input, resolveOutput (fullWorld []) fuel [] input = none := by
    intro input
    simp only [resolveOutput, List.isEmpty_nil, if_true, generateOutput]
    exact generateOutputLoop_full _ _ _ _ _ (fun _ => rfl) _ _ _ _
  simp only [hparse, hexp, hnone] at ho'
  exact absurd ho' (by simp)


/-! ### `filepath.Clean` -/

/-- `for out.w > dotdot && !sep` stops at `lo` when everything above `lo` is no
separator and `lo` itself is a separator or the bound. -/
theorem backtrackTo_stops (buf : List Char) (dotdot lo : Nat) (hlo : dotdot ≤ lo)
    (hstop : isSep (buf.getD lo '/') = true ∨ lo = dotdot) :
    ∀ w, lo ≤ w → (∀ i, lo < i → i ≤ w → isSep (buf.getD i '/') = false) →
      backtrackTo buf dotdot w = lo := by
  intro w
  induction w with
  | zero =>
    intro h _
    have : lo = 0 := by omega
    subst this
    rfl
  | succ w ih =>
    intro h habove
    by_cases heq : lo = w + 1
    · subst heq
      rw [backtrackTo]
      rcases hstop with hs | hs
      · rw [if_neg]
        simp only [hs, Bool.not_true, Bool.and_false, Bool.false_eq_true, not_false_eq_true]
      · rw [if_neg]
        have : ¬ (w + 1 > dotdot) := by omega
        simp only [this, decide_False, Bool.false_and, Bool.false_eq_true, not_false_eq_true]
    · have hlt : lo < w + 1 := by omega
      rw [backtrackTo]
      have h1 : w + 1 > dotdot := by omega
      have h2 := habove (w + 1) hlt (Nat.le_refl _)
      simp only [h1, h2, decide_True, Bool.not_false, Bool.and_self, if_true]
      exact ih (by omega) (fun i hi hiw => habove i hi (by omega))

theorem getD_append_notSep (X e : List Char) (he : ∀ c ∈ e, isSep c = false) (i : Nat)
    (hi : X.length ≤ i) (hi2 : i < X.length + e.length) :
    isSep ((X ++ e).getD i '/') = false := by
  rw [List.getD_append_right X e '/' i hi]
  have hlt : i - X.length < e.length := by omega
  rw [List.getD_eq_getElem e '/' hlt]
  exact he _ (List.getElem_mem _)

theorem backtrack_with_sep (X e : List Char) (dotdot : Nat) (hdd : dotdot ≤ X.length)
    (he : ∀ c ∈ e, isSep c = false) :
    (X ++ '/' :: e).take (backtrackTo (X ++ '/' :: e) dotdot ((X ++ '/' :: e).length - 1))
      = X := by
  have hb : backtrackTo (X ++ '/' :: e) dotdot ((X ++ '/' :: e).length - 1) = X.length := by
    apply backtrackTo_stops _ _ _ hdd
    · left
      rw [List.getD_append_right X _ '/' _ (Nat.le_refl _)]
      simp [isSep]
    · simp
    · intro i hi hiw
      have : X ++ '/' :: e = (X ++ ['/']) ++ e := by simp
      rw [this]
      apply getD_append_notSep _ _ he
      · simp; omega
      · simp at hiw ⊢; omega
  rw [hb]
  simp

theorem backtrack_no_sep (X e : List Char) (hne : e ≠ [])
    (he : ∀ c ∈ e, isSep c = false) :
    (X ++ e).take (backtrackTo (X ++ e) X.length ((X ++ e).length - 1)) = X := by
  have hpos : 0 < e.length := List.length_pos.mpr hne
  have hb : backtrackTo (X ++ e) X.length ((X ++ e).length - 1) = X.length := by
    apply backtrackTo_stops _ _ _ (Nat.le_refl _) (Or.inr rfl)
    · simp; omega
    · intro i hi hiw
      apply getD_append_notSep _ _ he
      · omega
      · simp at hiw; omega
  rw [hb]
  simp

theorem dropWhile_notSep_length (c : Char) (rest : List Char) (hc : isSep c = false) :
    ((c :: rest).dropWhile notSep).length ≤ rest.length := by
  have : notSep c = true := by simp [notSep, hc]
  rw [List.dropWhile_cons_of_pos this]
  exact (List.dropWhile_sublist _).length_le

theorem cleanLoop_fuel (r : Bool) :
    ∀ (f1 f2 : Nat) (path out : List Char) (dd : Nat), path.length ≤ f1 → path.length ≤ f2 →
      cleanLoop r f1 path out dd = cleanLoop r f2 path out dd := by
  intro f1
  induction f1 with
  | zero =>
    intro f2 path out dd h1 _
    have : path = [] := List.length_eq_zero.mp (by omega)
    subst this
    cases f2 <;> simp [cleanLoop]
  | succ f1 ih =>
    intro f2 path out dd h1 h2
    cases path with
    | nil => cases f2 <;> simp [cleanLoop]
    | cons c rest =>
      obtain ⟨g, rfl⟩ : ∃ g, f2 = g + 1 := ⟨f2 - 1, by simp at h2; omega⟩
      simp only [List.length_cons, Nat.add_le_add_iff_right] at h1 h2
      have ht : rest.tail.length ≤ rest.length := by simp
      simp only [cleanLoop]
      split_ifs with hsep
      all_goals first
        | exact ih _ _ _ _ h1 h2
        | exact ih _ _ _ _ (by omega) (by omega)
        | exact ih _ _ _ _
            (Nat.le_trans (dropWhile_notSep_length c rest (by simpa using hsep)) h1)
            (Nat.le_trans (dropWhile_notSep_length c rest (by simpa using hsep)) h2)

theorem cleanLoop_eq_cleanRun (r : Bool) (fuel : Nat) (path out : List Char) (dd : Nat)
    (h : path.length ≤ fuel) : cleanLoop r fuel path out dd = cleanRun r path out dd :=
  cleanLoop_fuel r fuel path.length path out dd h (Nat.le_refl _)

theorem cleanRun_nil (r : Bool) (out : List Char) (dd : Nat) : cleanRun r [] out dd = out := rfl

theorem cleanRun_sep (r : Bool) (rest out : List Char) (dd : Nat) :
    cleanRun r ('/' :: rest) out dd = cleanRun r rest out dd := by
  show cleanLoop r (rest.length + 1) ('/' :: rest) out dd = _
  rw [cleanLoop]
  simp only [isSep, beq_self_eq_true, if_true]
  rfl

theorem cleanRun_dot (r : Bool) (tail out : List Char) (dd : Nat) (ht : atBoundary tail = true) :
    cleanRun r ('.' :: tail) out dd = cleanRun r tail out dd := by
  show cleanLoop r (tail.length + 1) ('.' :: tail) out dd = _
  rw [cleanLoop]
  have h1 : isSep '.' = false := by decide
  unfold atBoundary at ht
  simp only [h1, Bool.false_eq_true, if_false, beq_self_eq_true, ht, Bool.and_self, if_true]
  rfl

theorem cleanRun_dotdot (r : Bool) (tail out : List Char) (dd : Nat)
    (ht : atBoundary tail = true) :
    cleanRun r ('.' :: '.' :: tail) out dd
      = if out.length > dd then
          cleanRun r tail (out.take (backtrackTo out dd (out.length - 1))) dd
        else if !r then cleanRun r tail (appendDotDot out) (appendDotDot out).length
        else cleanRun r tail out dd := by
  show cleanLoop r (tail.length + 1 + 1) ('.' :: '.' :: tail) out dd = _
  rw [cleanLoop]
  have h1 : isSep '.' = false := by decide
  unfold atBoundary at ht
  simp only [h1, Bool.false_eq_true, if_false, beq_self_eq_true, List.isEmpty_cons,
    List.headD_cons, Bool.or_self, Bool.and_false, List.tail_cons, ht, Bool.and_self, if_true,
    Bool.true_and]
  rw [cleanLoop_eq_cleanRun r _ tail _ _ (by omega), cleanLoop_eq_cleanRun r _ tail _ _ (by omega),
    cleanLoop_eq_cleanRun r _ tail _ _ (by omega)]
  rfl

theorem takeWhile_notSep_append (e tail : List Char) (he : ∀ c ∈ e, isSep c = false)
    (ht : atBoundary tail = true) :
    (e ++ tail).takeWhile notSep = e ∧ (e ++ tail).dropWhile notSep = tail := by
  have he' : ∀ c ∈ e, notSep c = true := fun c hc => by simp [notSep, he c hc]
  rw [List.takeWhile_append_of_pos he', List.dropWhile_append_of_pos he']
  cases tail with
  | nil => simp
  | cons t ts =>
    have : notSep t = false := by simpa [atBoundary, notSep] using ht
    simp [List.takeWhile_cons, List.dropWhile_cons, this]

theorem plain_head (e tail : List Char) (he : plain e) :
    ∃ c rest, e = c :: rest ∧ isSep c = false
      ∧ (c == '.' && ((rest ++ tail).isEmpty || isSep ((rest ++ tail).headD '/'))) = false
      ∧ (c == '.' && (rest ++ tail).headD '/' == '.'
          && ((rest ++ tail).tail.isEmpty || isSep ((rest ++ tail).tail.headD '/'))) = false := by
  obtain ⟨hne, hsep, hdot, hdotdot⟩ := he
  cases e with
  | nil => exact absurd rfl hne
  | cons c rest =>
    refine ⟨c, rest, rfl, hsep c (List.mem_cons_self _ _), ?_, ?_⟩
    · cases rest with
      | nil =>
        have : c ≠ '.' := fun h => hdot (by rw [h])
        simp [this]
      | cons d rest' =>
        have : isSep d = false := hsep d (by simp)
        simp [this]
    · cases rest with
      | nil =>
        have : c ≠ '.' := fun h => hdot (by rw [h])
        simp [this]
      | cons d rest' =>
        cases rest' with
        | nil =>
          have : ¬ (c = '.' ∧ d = '.') := fun h => hdotdot (by rw [h.1, h.2])
          by_cases hc : c = '.'
          · have hd : d ≠ '.' := fun h => this ⟨hc, h⟩
            simp [hd]
          · simp [hc]
        | cons x xs =>
          have : isSep x = false := hsep x (by simp)
          simp [this]

theorem cleanRun_elem (r : Bool) (e tail out : List Char) (dd : Nat) (he : plain e)
    (ht : atBoundary tail = true) :
    cleanRun r (e ++ tail) out dd = cleanRun r tail (appendElem r out e) dd := by
  obtain ⟨c, rest, rfl, h1, h2, h3⟩ := plain_head e tail he
  obtain ⟨htake, hdrop⟩ := takeWhile_notSep_append (c :: rest) tail he.2.1 ht
  show cleanLoop r ((c :: rest ++ tail).length) (c :: rest ++ tail) out dd = _
  simp only [List.cons_append, List.length_cons] at htake hdrop ⊢
  rw [cleanLoop]
  simp only [h1, h2, h3, Bool.false_eq_true, if_false, htake, hdrop]
  rw [cleanLoop_eq_cleanRun r _ tail _ _ (by simp)]
  rfl

theorem isSep_iff (c : Char) : isSep c = true ↔ c = '/' := by
  simp [isSep]

theorem atBoundary_dropWhile (t : List Char) : atBoundary (t.dropWhile notSep) = true := by
  induction t with
  | nil => rfl
  | cons c rest ih =>
    by_cases hc : notSep c = true
    · rw [List.dropWhile_cons_of_pos hc]
      exact ih
    · rw [List.dropWhile_cons_of_neg hc]
      simpa [atBoundary, notSep] using hc

theorem takeWhile_nil_boundary (t : List Char) (h : t.takeWhile notSep = []) :
    atBoundary t = true := by
  cases t with
  | nil => rfl
  | cons c rest =>
    by_cases hc : notSep c = true
    · rw [List.takeWhile_cons_of_pos hc] at h
      exact absurd h (by simp)
    · simpa [atBoundary, notSep] using hc

theorem takeWhile_plain (c : Char) (rest : List Char) (hsep : isSep c = false)
    (hdot : ¬ (c = '.' ∧ atBoundary rest = true))
    (hdotdot : ¬ (c = '.' ∧ ∃ rest', rest = '.' :: rest' ∧ atBoundary rest' = true)) :
    plain ((c :: rest).takeWhile notSep) := by
  have hc : notSep c = true := by simp [notSep, hsep]
  rw [List.takeWhile_cons_of_pos hc]
  refine ⟨by simp, ?_, ?_, ?_⟩
  · intro x hx
    rcases List.mem_cons.mp hx with rfl | hx
    · exact hsep
    · have := List.mem_takeWhile_imp hx
      simpa [notSep] using this
  · intro h
    simp only [List.cons.injEq] at h
    exact hdot ⟨h.1, takeWhile_nil_boundary rest h.2⟩
  · intro h
    simp only [List.cons.injEq] at h
    obtain ⟨hc1, htw⟩ := h
    cases rest with
    | nil => simp at htw
    | cons d rest' =>
      by_cases hd : notSep d = true
      · rw [List.takeWhile_cons_of_pos hd] at htw
        simp only [List.cons.injEq] at htw
        exact hdotdot ⟨hc1, rest', by rw [htw.1], takeWhile_nil_boundary rest' htw.2⟩
      · rw [List.takeWhile_cons_of_neg hd] at htw
        exact absurd htw (by simp)

theorem CleanState.facts {r : Bool} {out : List Char} {dd : Nat} (h : CleanState r out dd) :
    dd ≤ out.length ∧ (r = true → dd = 1 ∧ ∃ t, out = '/' :: t)
      ∧ (r = false → out = [] ∨ ∃ c t, out = c :: t ∧ isSep c = false) := by
  induction h with
  | init => cases r <;> simp
  | @up out0 dd0 hr _ hlen ih =>
    subst hr
    refine ⟨Nat.le_refl _, by simp, fun _ => Or.inr ?_⟩
    rcases ih.2.2 rfl with h0 | ⟨c, t, h0, hc⟩
    · subst h0
      exact ⟨'.', ['.'], rfl, by decide⟩
    · subst h0
      exact ⟨c, t ++ ['/', '.', '.'], by simp [appendDotDot], hc⟩
  | @elem out0 dd0 e _ he ih =>
    refine ⟨?_, ?_, ?_⟩
    · have : out0.length ≤ (appendElem r out0 e).length := by
        unfold appendElem
        split <;> simp
      omega
    · intro hr
      obtain ⟨hdd, t, ht⟩ := ih.2.1 hr
      refine ⟨hdd, ?_⟩
      subst ht
      unfold appendElem
      split <;> simp
    · intro hr
      right
      rcases ih.2.2 hr with h0 | ⟨c, t, h0, hc⟩
      · subst h0
        subst hr
        obtain ⟨hne, hsep, _, _⟩ := he
        cases e with
        | nil => exact absurd rfl hne
        | cons c t => exact ⟨c, t, by simp [appendElem], hsep c (by simp)⟩
      · subst h0
        refine ⟨c, ?_, ?_, hc⟩
        · exact (appendElem r (c :: t) e).tail
        · unfold appendElem
          split <;> simp

theorem CleanState.backtrack {r : Bool} {out : List Char} {dd : Nat} (h : CleanState r out dd)
    (hgt : out.length > dd) :
    CleanState r (out.take (backtrackTo out dd (out.length - 1))) dd := by
  cases h with
  | init => cases r <;> simp at hgt
  | up hr _ hlen => omega
  | @elem out0 _ e h0 he =>
    obtain ⟨hdd, hroot, hun⟩ := h0.facts
    unfold appendElem
    split
    · rename_i hs
      have : out0 ++ ['/'] ++ e = out0 ++ '/' :: e := by simp
      rw [this, backtrack_with_sep out0 e dd hdd he.2.1]
      exact h0
    · rename_i hs
      have hlen : out0.length = dd := by
        cases r with
        | true =>
          have := (hroot rfl).1
          simp at hs
          omega
        | false =>
          simp at hs
          subst hs
          exact (by simpa using hdd : dd = 0).symm
      subst hlen
      rw [backtrack_no_sep out0 e he.1 he.2.1]
      exact h0

theorem cleanRun_state (r : Bool) :
    ∀ (n : Nat) (path out : List Char) (dd : Nat), path.length ≤ n → CleanState r out dd →
      ∃ dd', CleanState r (cleanRun r path out dd) dd' := by
  intro n
  induction n with
  | zero =>
    intro path out dd hlen h
    have : path = [] := List.length_eq_zero.mp (by omega)
    subst this
    exact ⟨dd, h⟩
  | succ n ih =>
    intro path out dd hlen h
    cases path with
    | nil => exact ⟨dd, h⟩
    | cons c rest =>
      simp only [List.length_cons, Nat.add_le_add_iff_right] at hlen
      by_cases hsep : isSep c = true
      · rw [(isSep_iff c).mp hsep, cleanRun_sep]
        exact ih rest out dd hlen h
      by_cases hdot : c = '.' ∧ atBoundary rest = true
      · rw [hdot.1, cleanRun_dot r rest out dd hdot.2]
        exact ih rest out dd hlen h
      by_cases hdotdot : c = '.' ∧ ∃ rest', rest = '.' :: rest' ∧ atBoundary rest' = true
      · obtain ⟨rfl, rest', rfl, hb⟩ := hdotdot
        rw [cleanRun_dotdot r rest' out dd hb]
        have hlen' : rest'.length ≤ n := by simp at hlen; omega
        split
        · rename_i hgt
          exact ih rest' _ dd hlen' (h.backtrack hgt)
        · rename_i hgt
          split
          · rename_i hr
            have hr' : r = false := by simpa using hr
            exact ih rest' _ _ hlen' (CleanState.up hr' h (by have := h.facts.1; omega))
          · exact ih rest' out dd hlen' h
      · have hsep' : isSep c = false := by simpa using hsep
        have hplain := takeWhile_plain c rest hsep' hdot hdotdot
        have hsplit : c :: rest
            = (c :: rest).takeWhile notSep ++ (c :: rest).dropWhile notSep :=
          (List.takeWhile_append_dropWhile _ _).symm
        rw [hsplit, cleanRun_elem r _ _ out dd hplain (atBoundary_dropWhile _)]
        exact ih _ _ dd (Nat.le_trans (dropWhile_notSep_length c rest hsep') hlen)
          (CleanState.elem h hplain)

theorem cleanRun_replay {r : Bool} {out : List Char} {dd : Nat} (h : CleanState r out dd) :
    ∀ tail, atBoundary tail = true →
      cleanRun r ((if r then out.tail else out) ++ tail) (if r then ['/'] else [])
          (if r then 1 else 0)
        = cleanRun r tail out dd := by
  induction h with
  | init => intro tail _; cases r <;> rfl
  | @up out0 dd0 hr h0 hlen ih =>
    subst hr
    intro tail ht
    simp only [Bool.false_eq_true, if_false] at ih ⊢
    cases out0 with
    | nil =>
      simp only [List.length_nil] at hlen
      subst hlen
      have : appendDotDot [] ++ tail = '.' :: '.' :: tail := rfl
      rw [this, cleanRun_dotdot false tail [] 0 ht]
      rfl
    | cons c t =>
      have htext : appendDotDot (c :: t) ++ tail = (c :: t) ++ ('/' :: '.' :: '.' :: tail) := by
        simp [appendDotDot]
      rw [htext, ih ('/' :: '.' :: '.' :: tail) rfl, cleanRun_sep,
        cleanRun_dotdot false tail (c :: t) dd0 ht, if_neg (by omega)]
      rfl
  | @elem out0 dd0 e h0 he ih =>
    intro tail ht
    obtain ⟨hdd, hroot, hun⟩ := h0.facts
    by_cases hs : ((r && out0.length != 1) || (!r && out0.length != 0)) = true
    · have happ : appendElem r out0 e = out0 ++ '/' :: e := by
        unfold appendElem
        rw [if_pos hs]
        simp
      have htext : (if r then (appendElem r out0 e).tail else appendElem r out0 e) ++ tail
          = (if r then out0.tail else out0) ++ ('/' :: (e ++ tail)) := by
        rw [happ]
        cases r with
        | true =>
          obtain ⟨_, t, rfl⟩ := hroot rfl
          simp
        | false => simp
      rw [htext, ih ('/' :: (e ++ tail)) rfl, cleanRun_sep, cleanRun_elem r e tail out0 dd0 he ht]
    · have happ : appendElem r out0 e = out0 ++ e := by
        unfold appendElem
        rw [if_neg hs]
      cases r with
      | true =>
        obtain ⟨hdd1, t, rfl⟩ := hroot rfl
        have ht0 : t = [] := by
          simp at hs
          exact hs
        subst ht0
        subst hdd1
        have htext : (if true then (appendElem true ['/'] e).tail else appendElem true ['/'] e)
            ++ tail = e ++ tail := by
          rw [happ]
          rfl
        rw [htext]
        exact cleanRun_elem true e tail ['/'] 1 he ht
      | false =>
        have h0' : out0 = [] := by
          simp at hs
          exact hs
        subst h0'
        have hdd0 : dd0 = 0 := by simpa using hdd
        subst hdd0
        have htext : (if false then (appendElem false [] e).tail else appendElem false [] e)
            ++ tail = e ++ tail := by
          rw [happ]
          rfl
        rw [htext]
        exact cleanRun_elem false e tail [] 0 he ht

theorem Clean_state (p : GoString) :
    ∃ r out dd, CleanState r out dd ∧ Clean p = orDot out := by
  cases p with
  | nil => exact ⟨false, [], 0, CleanState.init, rfl⟩
  | cons c rest =>
    by_cases hc : isSep c = true
    · obtain ⟨dd, h⟩ := cleanRun_state true rest.length rest ['/'] 1 (Nat.le_refl _)
        (@CleanState.init true)
      refine ⟨true, _, dd, h, ?_⟩
      simp only [Clean, hc, if_true]
      rw [cleanLoop_eq_cleanRun true _ rest _ _ (by simp)]
      rfl
    · obtain ⟨dd, h⟩ := cleanRun_state false (c :: rest).length (c :: rest) [] 0 (Nat.le_refl _)
        (@CleanState.init false)
      refine ⟨false, _, dd, h, ?_⟩
      simp only [Clean, hc, Bool.false_eq_true, if_false]
      rfl

theorem Clean_append_state {r : Bool} {out : List Char} {dd : Nat} (h : CleanState r out dd)
    (hne : out ≠ []) (tail : List Char) (ht : atBoundary tail = true) :
    Clean (out ++ tail) = orDot (cleanRun r tail out dd) := by
  obtain ⟨_, hroot, hun⟩ := h.facts
  have hrep := cleanRun_replay h tail ht
  cases r with
  | true =>
    obtain ⟨_, t, rfl⟩ := hroot rfl
    simp only [if_true, List.tail_cons] at hrep
    have hsep : isSep '/' = true := by decide
    simp only [List.cons_append, Clean, hsep, if_true]
    rw [cleanLoop_eq_cleanRun true _ (t ++ tail) _ _ (by simp), hrep]
    rfl
  | false =>
    rcases hun rfl with h0 | ⟨c, t, rfl, hc⟩
    · exact absurd h0 hne
    · simp only [Bool.false_eq_true, if_false] at hrep
      simp only [List.cons_append, Clean, hc, Bool.false_eq_true, if_false]
      rw [← hrep]
      rfl

theorem cleanRun_seps (r : Bool) (seps t out : List Char) (dd : Nat)
    (hseps : ∀ c ∈ seps, c = '/') : cleanRun r (seps ++ t) out dd = cleanRun r t out dd := by
  induction seps with
  | nil => rfl
  | cons c cs ih =>
    have hc : c = '/' := hseps c (by simp)
    subst hc
    rw [List.cons_append, cleanRun_sep]
    exact ih (fun d hd => hseps d (List.mem_cons_of_mem _ hd))

theorem orDot_ne_nil (out : List Char) : orDot out ≠ [] := by
  unfold orDot
  cases out <;> simp

theorem Clean_ne_nil (p : GoString) : Clean p ≠ [] := by
  obtain ⟨r, out, dd, _, h⟩ := Clean_state p
  rw [h]
  exact orDot_ne_nil out

theorem rdropWhile_notSep_append (pre g : List Char) (hg : ∀ c ∈ g, isSep c = false) :
    (pre ++ g).rdropWhile notSep = pre.rdropWhile notSep := by
  unfold List.rdropWhile
  rw [List.reverse_append, List.dropWhile_append_of_pos]
  intro c hc
  simp [notSep, hg c (List.mem_reverse.mp hc)]

/-- The path `Join(Clean p, seps ++ g)` for a real element `g`: it ends with
`g`, what precedes `g` is empty or ends with a separator, and its directory is
`Clean p` again. -/
theorem Clean_join_plain (p : GoString) (seps g : List Char) (hseps : ∀ c ∈ seps, c = '/')
    (hg : plain g) :
    ∃ pre, Clean (Clean p ++ '/' :: (seps ++ g)) = pre ++ g
      ∧ (pre = [] ∨ ∃ pre', pre = pre' ++ ['/'])
      ∧ Clean (pre.rdropWhile notSep) = Clean p := by
  obtain ⟨r, out, dd, hst, hclean⟩ := Clean_state p
  have hnotsep : ¬ notSep '/' = true := by decide
  by_cases hout : out = []
  · subst hout
    have hp : Clean p = ['.'] := hclean
    refine ⟨[], ?_, Or.inl rfl, ?_⟩
    · rw [hp]
      have hdot : isSep '.' = false := by decide
      simp only [List.singleton_append, Clean, hdot, Bool.false_eq_true, if_false]
      rw [cleanLoop_eq_cleanRun false _ _ _ _ (Nat.le_refl _),
        cleanRun_dot false ('/' :: (seps ++ g)) _ _ rfl, cleanRun_sep,
        cleanRun_seps false seps g [] 0 hseps]
      have := cleanRun_elem false g [] [] 0 hg rfl
      rw [List.append_nil] at this
      rw [this, cleanRun_nil]
      obtain ⟨hne, _⟩ := hg
      cases g with
      | nil => exact absurd rfl hne
      | cons c t => rfl
    · rw [hp]
      rfl
  · have hp : Clean p = out := by
      rw [hclean]
      unfold orDot
      cases out with
      | nil => exact absurd rfl hout
      | cons c t => rfl
    have hrun : Clean (out ++ '/' :: (seps ++ g)) = appendElem r out g := by
      rw [Clean_append_state hst hout ('/' :: (seps ++ g)) rfl, cleanRun_sep,
        cleanRun_seps r seps g out dd hseps]
      have := cleanRun_elem r g [] out dd hg rfl
      rw [List.append_nil] at this
      rw [this, cleanRun_nil]
      unfold orDot
      have : appendElem r out g ≠ [] := by
        unfold appendElem
        cases out with
        | nil => exact absurd rfl hout
        | cons c t => split <;> simp
      cases hx : appendElem r out g with
      | nil => exact absurd hx this
      | cons c t => rfl
    rw [hp, hrun]
    by_cases hs : ((r && out.length != 1) || (!r && out.length != 0)) = true
    · refine ⟨out ++ ['/'], ?_, Or.inr ⟨out, rfl⟩, ?_⟩
      · unfold appendElem
        rw [if_pos hs]
      · rw [List.rdropWhile_concat_neg _ _ _ hnotsep, Clean_append_state hst hout ['/'] rfl,
          cleanRun_sep, cleanRun_nil]
        unfold orDot
        cases out with
        | nil => exact absurd rfl hout
        | cons c t => rfl
    · have hroot : out = ['/'] := by
        obtain ⟨_, hroot, hun⟩ := hst.facts
        cases r with
        | true =>
          obtain ⟨_, t, rfl⟩ := hroot rfl
          have ht0 : t = [] := by
            simp at hs
            exact hs
          rw [ht0]
        | false =>
          have : out = [] := by
            simp at hs
            exact hs
          exact absurd this hout
      subst hroot
      refine ⟨['/'], ?_, Or.inr ⟨[], rfl⟩, ?_⟩
      · unfold appendElem
        rw [if_neg hs]
      · rfl

/-! ### `Base`, `Ext` and `TrimSuffix` -/

theorem Base_cases (input : GoString) :
    Base input = ['/'] ∨ (Base input ≠ [] ∧ ∀ c ∈ Base input, isSep c = false) := by
  unfold Base
  split
  · right
    exact ⟨by simp, by decide⟩
  · simp only
    split
    · left; rfl
    · rename_i hne
      right
      refine ⟨by simpa using hne, fun c hc => ?_⟩
      unfold List.rtakeWhile at hc
      have := List.mem_takeWhile_imp (List.mem_reverse.mp hc)
      simpa [notSep] using this

theorem Base_of_join (pre g : List Char) (hpre : pre = [] ∨ ∃ pre', pre = pre' ++ ['/'])
    (hne : g ≠ []) (hg : ∀ c ∈ g, isSep c = false) : Base (pre ++ g) = g := by
  obtain ⟨g', x, rfl⟩ : ∃ g' x, g = g' ++ [x] := by
    rcases List.eq_nil_or_concat g with h | ⟨L, b, h⟩
    · exact absurd h hne
    · exact ⟨L, b, by simpa using h⟩
  have hx : ¬ isSep x = true := by simp [hg x (by simp)]
  have hstrip : (pre ++ (g' ++ [x])).rdropWhile isSep = pre ++ (g' ++ [x]) := by
    rw [← List.append_assoc]
    exact List.rdropWhile_concat_neg _ _ _ hx
  have hlast : (pre ++ (g' ++ [x])).rtakeWhile notSep = g' ++ [x] := by
    unfold List.rtakeWhile
    rw [List.reverse_append, List.takeWhile_append_of_pos]
    · have : pre.reverse.takeWhile notSep = [] := by
        rcases hpre with rfl | ⟨pre', rfl⟩
        · rfl
        · simp [notSep, isSep]
      rw [this]
      simp
    · intro c hc
      simp [notSep, hg c (List.mem_reverse.mp hc)]
  unfold Base
  rw [if_neg (by simp)]
  simp only [hstrip, hlast]
  rw [if_neg (by simp)]

theorem extScan_boundary (grev Y acc : List Char) (hg : ∀ c ∈ grev, isSep c = false)
    (hY : atBoundary Y = true) : extScan (grev ++ Y) acc = extScan grev acc := by
  induction grev generalizing acc with
  | nil =>
    cases Y with
    | nil => rfl
    | cons y ys =>
      have : isSep y = true := by simpa [atBoundary] using hY
      simp [extScan, this]
  | cons c rest ih =>
    have hc : isSep c = false := hg c (by simp)
    simp only [List.cons_append, extScan, hc, Bool.false_eq_true, if_false]
    split
    · rfl
    · exact ih _ (fun d hd => hg d (List.mem_cons_of_mem _ hd))

theorem Ext_of_join (pre g : List Char) (hpre : pre = [] ∨ ∃ pre', pre = pre' ++ ['/'])
    (hg : ∀ c ∈ g, isSep c = false) : Ext (pre ++ g) = Ext g := by
  unfold Ext
  rw [List.reverse_append]
  apply extScan_boundary
  · exact fun c hc => hg c (List.mem_reverse.mp hc)
  · rcases hpre with rfl | ⟨pre', rfl⟩
    · rfl
    · simp [atBoundary, isSep]

theorem extScan_takeWhile (rev acc : List Char) :
    extScan (rev.takeWhile notSep) acc = extScan rev acc := by
  induction rev generalizing acc with
  | nil => rfl
  | cons c rest ih =>
    by_cases hc : isSep c = true
    · have : ¬ notSep c = true := by simp [notSep, hc]
      rw [List.takeWhile_cons_of_neg this]
      simp [extScan, hc]
    · have hc' : isSep c = false := by simpa using hc
      have : notSep c = true := by simp [notSep, hc']
      rw [List.takeWhile_cons_of_pos this]
      simp only [extScan, hc', Bool.false_eq_true, if_false]
      split
      · rfl
      · exact ih _

theorem Ext_Base (input : GoString) (hne : input ≠ [])
    (hlast : input.getLast? ≠ some '/') : Ext (Base input) = Ext input := by
  obtain ⟨init, x, rfl⟩ : ∃ init x, input = init ++ [x] := by
    rcases List.eq_nil_or_concat input with h | ⟨L, b, h⟩
    · exact absurd h hne
    · exact ⟨L, b, by simpa using h⟩
  have hx : ¬ isSep x = true := by
    intro h
    apply hlast
    rw [List.getLast?_concat, (isSep_iff x).mp h]
  have hx' : notSep x = true := by simpa [notSep] using hx
  unfold Base
  rw [if_neg (by simp), List.rdropWhile_concat_neg _ _ _ hx]
  simp only
  rw [if_neg (by simp [List.rtakeWhile, hx'])]
  unfold Ext List.rtakeWhile
  rw [List.reverse_reverse]
  exact extScan_takeWhile _ _

theorem extScan_cases (rev acc : List Char) :
    (extScan rev acc = [] ∧ ∀ c ∈ rev.takeWhile notSep, c ≠ '.')
    ∨ (∃ a b, rev = a ++ '.' :: b ∧ (∀ c ∈ a, c ≠ '.' ∧ isSep c = false)
        ∧ extScan rev acc = '.' :: (a.reverse ++ acc)) := by
  induction rev generalizing acc with
  | nil => left; exact ⟨rfl, by simp⟩
  | cons c rest ih =>
    by_cases hc : isSep c = true
    · left
      have : ¬ notSep c = true := by simp [notSep, hc]
      rw [List.takeWhile_cons_of_neg this]
      exact ⟨by simp [extScan, hc], by simp⟩
    · have hc' : isSep c = false := by simpa using hc
      have hns : notSep c = true := by simp [notSep, hc']
      by_cases hd : c = '.'
      · right
        subst hd
        exact ⟨[], rest, rfl, by simp, by simp [extScan, hc']⟩
      · have hstep : extScan (c :: rest) acc = extScan rest (c :: acc) := by
          simp [extScan, hc', hd]
        rcases ih (c :: acc) with ⟨h0, hno⟩ | ⟨a, b, hab, ha, hval⟩
        · left
          rw [hstep, List.takeWhile_cons_of_pos hns]
          refine ⟨h0, fun x hx => ?_⟩
          rcases List.mem_cons.mp hx with rfl | hx
          · exact hd
          · exact hno x hx
        · right
          refine ⟨c :: a, b, by rw [hab]; rfl, ?_, ?_⟩
          · intro x hx
            rcases List.mem_cons.mp hx with rfl | hx
            · exact ⟨hd, hc'⟩
            · exact ha x hx
          · rw [hstep, hval]
            simp

/-- The extension `Ext b` is a suffix of `b`; it is empty, and then a
separator-free `b` has no dot, or it is a dot followed by characters that are
neither dots nor separators. -/
theorem Ext_cases (b : GoString) :
    ∃ name, b = name ++ Ext b
      ∧ ((Ext b = [] ∧ ((∀ c ∈ b, isSep c = false) → ∀ c ∈ b, c ≠ '.'))
        ∨ ∃ rest, Ext b = '.' :: rest ∧ ∀ c ∈ rest, c ≠ '.' ∧ isSep c = false) := by
  rcases extScan_cases b.reverse [] with ⟨h0, hno⟩ | ⟨a, rest, hab, ha, hval⟩
  · refine ⟨b, ?_, Or.inl ⟨h0, fun hb c hc => ?_⟩⟩
    · unfold Ext
      rw [h0, List.append_nil]
    · have hall : b.reverse.takeWhile notSep = b.reverse := by
        rw [List.takeWhile_eq_self_iff]
        intro x hx
        simp [notSep, hb x (List.mem_reverse.mp hx)]
      rw [hall] at hno
      exact hno c (List.mem_reverse.mpr hc)
  · have hb : b = rest.reverse ++ '.' :: a.reverse := by
      have := congrArg List.reverse hab
      simpa using this
    refine ⟨rest.reverse, ?_, Or.inr ⟨a.reverse, ?_, ?_⟩⟩
    · unfold Ext
      rw [hval]
      simpa using hb
    · unfold Ext
      rw [hval]
      simp
    · intro c hc
      exact ha c (List.mem_reverse.mp hc)

theorem extScan_skip (a b acc : List Char) (ha : ∀ c ∈ a, c ≠ '.' ∧ isSep c = false) :
    extScan (a ++ '.' :: b) acc = '.' :: (a.reverse ++ acc) := by
  induction a generalizing acc with
  | nil => simp [extScan, isSep]
  | cons c rest ih =>
    obtain ⟨hd, hc⟩ := ha c (by simp)
    have hstep : extScan (c :: (rest ++ '.' :: b)) acc = extScan (rest ++ '.' :: b) (c :: acc) := by
      simp [extScan, hc, hd]
    rw [List.cons_append, hstep, ih _ (fun d hd => ha d (List.mem_cons_of_mem _ hd))]
    simp

theorem Ext_of_dot (x rest : List Char) (hrest : ∀ c ∈ rest, c ≠ '.' ∧ isSep c = false) :
    Ext (x ++ '.' :: rest) = '.' :: rest := by
  unfold Ext
  have : (x ++ '.' :: rest).reverse = rest.reverse ++ '.' :: x.reverse := by simp
  rw [this, extScan_skip _ _ _ (fun c hc => hrest c (List.mem_reverse.mp hc))]
  simp

theorem Ext_no_dot (g : List Char) (hg : ∀ c ∈ g, c ≠ '.') : Ext g = [] := by
  rcases extScan_cases g.reverse [] with ⟨h0, _⟩ | ⟨a, b, hab, _, _⟩
  · exact h0
  · exfalso
    have : '.' ∈ g.reverse := by rw [hab]; simp
    exact hg '.' (List.mem_reverse.mp this) rfl

theorem TrimSuffix_append (name ext : GoString) : TrimSuffix (name ++ ext) ext = name := by
  unfold TrimSuffix
  rw [if_pos (by simp)]
  simp

theorem fmtInt_chars (i : Int) : ∀ c ∈ fmtInt i, c ≠ '.' ∧ isSep c = false ∧ c ≠ '_' := by
  have hdigit : ∀ m, m < 10 →
      Nat.digitChar m ≠ '.' ∧ isSep (Nat.digitChar m) = false ∧ Nat.digitChar m ≠ '_' := by
    decide
  have hcore : ∀ (fuel n : Nat) (ds : List Char),
      (∀ c ∈ ds, c ≠ '.' ∧ isSep c = false ∧ c ≠ '_') →
      ∀ c ∈ Nat.toDigitsCore 10 fuel n ds, c ≠ '.' ∧ isSep c = false ∧ c ≠ '_' := by
    intro fuel
    induction fuel with
    | zero => intro n ds hds; simpa [Nat.toDigitsCore] using hds
    | succ f ih =>
      intro n ds hds
      have hcons : ∀ c ∈ Nat.digitChar (n % 10) :: ds,
          c ≠ '.' ∧ isSep c = false ∧ c ≠ '_' := by
        intro c hc
        rcases List.mem_cons.mp hc with rfl | hc
        · exact hdigit _ (Nat.mod_lt _ (by decide))
        · exact hds c hc
      simp only [Nat.toDigitsCore]
      split
      · exact hcons
      · exact ih _ _ hcons
  have hdigits : ∀ n, ∀ c ∈ Nat.toDigits 10 n, c ≠ '.' ∧ isSep c = false ∧ c ≠ '_' :=
    fun n => hcore _ _ _ (by simp)
  intro c hc
  unfold fmtInt at hc
  split at hc
  · rcases List.mem_cons.mp hc with rfl | hc
    · decide
    · exact hdigits _ c hc
  · exact hdigits _ c hc

/-! ### The default output path -/

/-- The file name `name+"_trim"+index+ext` that `generateOutput` builds is a real
path element `g`, possibly after separators (when the base name is `/`), with
the extension of the base name and different from the base name. -/
theorem outputName_shape (input idx : GoString)
    (hidx : ∀ c ∈ idx, c ≠ '.' ∧ isSep c = false ∧ c ≠ '_') :
    ∃ seps g, TrimSuffix (Base input) (Ext (Base input)) ++ "_trim".toList ++ idx
          ++ Ext (Base input) = seps ++ g
      ∧ (∀ c ∈ seps, c = '/') ∧ plain g ∧ Ext g = Ext (Base input) ∧ g ≠ Base input := by
  obtain ⟨nm, hb, hext⟩ := Ext_cases (Base input)
  have hname : TrimSuffix (Base input) (Ext (Base input)) = nm := by
    conv_lhs => arg 1; rw [hb]
    exact TrimSuffix_append nm _
  rw [hname]
  have htrim : ∀ c ∈ "_trim".toList, c ≠ '.' ∧ isSep c = false := by decide
  rcases Base_cases input with hroot | ⟨hne, hsep⟩
  · have hext0 : Ext (Base input) = [] := by rw [hroot]; rfl
    have hnm : nm = ['/'] := by
      rw [hext0, List.append_nil] at hb
      rw [← hb, hroot]
    rw [hext0, hnm, hroot]
    refine ⟨['/'], "_trim".toList ++ idx, by simp, by simp, ⟨by simp, ?_, by simp, by simp⟩,
      ?_, by simp⟩
    · intro c hc
      rcases List.mem_append.mp hc with h | h
      · exact (htrim c h).2
      · exact (hidx c h).2.1
    · apply Ext_no_dot
      intro c hc
      rcases List.mem_append.mp hc with h | h
      · exact (htrim c h).1
      · exact (hidx c h).1
  · have hnm_sep : ∀ c ∈ nm, isSep c = false := fun c hc =>
      hsep c (by rw [hb]; exact List.mem_append_left _ hc)
    have hext_sep : ∀ c ∈ Ext (Base input), isSep c = false := fun c hc =>
      hsep c (by rw [hb]; exact List.mem_append_right _ hc)
    have hmem : '_' ∈ nm ++ "_trim".toList ++ idx ++ Ext (Base input) := by simp
    refine ⟨[], nm ++ "_trim".toList ++ idx ++ Ext (Base input), rfl, by simp,
      ⟨by simp, ?_, ?_, ?_⟩, ?_, ?_⟩
    · intro c hc
      simp only [List.mem_append] at hc
      rcases hc with ((h | h) | h) | h
      · exact hnm_sep c h
      · exact (htrim c h).2
      · exact (hidx c h).2.1
      · exact hext_sep c h
    · intro h
      rw [h] at hmem
      simp at hmem
    · intro h
      rw [h] at hmem
      simp at hmem
    · rcases hext with ⟨h0, hnodot⟩ | ⟨rest, hrest, hchars⟩
      · rw [h0, List.append_nil]
        have hbase : Base input = nm := by rw [h0, List.append_nil] at hb; exact hb
        apply Ext_no_dot
        intro c hc
        simp only [List.mem_append] at hc
        rcases hc with (h | h) | h
        · exact hnodot hsep c (by rw [hbase]; exact h)
        · exact (htrim c h).1
        · exact (hidx c h).1
      · rw [hrest]
        exact Ext_of_dot _ rest hchars
    · intro h
      have hlen := congrArg List.length h
      have hbl : (Base input).length = nm.length + (Ext (Base input)).length := by
        conv_lhs => rw [hb]
        simp
      simp only [List.length_append] at hlen
      have h5 : "_trim".toList.length = 5 := rfl
      omega

theorem candidate_eq (input : GoString) (k : Nat) :
    ∃ idx, (∀ c ∈ idx, c ≠ '.' ∧ isSep c = false ∧ c ≠ '_')
      ∧ candidate input "_trim".toList k
        = Clean (Dir input ++ '/' :: (TrimSuffix (Base input) (Ext (Base input))
            ++ "_trim".toList ++ idx ++ Ext (Base input))) := by
  have hdir : (!(Dir input).isEmpty) = true := by
    have := Clean_ne_nil (input.rdropWhile notSep)
    unfold Dir
    cases h : Clean (input.rdropWhile notSep) with
    | nil => exact absurd h this
    | cons c t => rfl
  cases k with
  | zero =>
    refine ⟨[], by simp, ?_⟩
    simp only [candidate, Join, hdir, if_true, List.append_nil]
  | succ j =>
    refine ⟨fmtInt (counterAt (j + 1)), fmtInt_chars _, ?_⟩
    simp only [candidate, Join, hdir, if_true]

theorem candidate_beside_input (input : GoString) (k : Nat) :
    Dir (candidate input "_trim".toList k) = Dir input
      ∧ Ext (candidate input "_trim".toList k) = Ext (Base input)
      ∧ Base (candidate input "_trim".toList k) ≠ Base input := by
  obtain ⟨idx, hidx, hcand⟩ := candidate_eq input k
  obtain ⟨seps, g, hfile, hseps, hg, hextg, hneq⟩ := outputName_shape input idx hidx
  rw [hfile] at hcand
  obtain ⟨pre, hjoin, hpre, hdirpre⟩ :=
    Clean_join_plain (input.rdropWhile notSep) seps g hseps hg
  have hout : candidate input "_trim".toList k = pre ++ g := by
    rw [hcand]
    exact hjoin
  rw [hout]
  refine ⟨?_, ?_, ?_⟩
  · unfold Dir
    rw [rdropWhile_notSep_append pre g hg.2.1]
    exact hdirpre
  · rw [Ext_of_join pre g hpre hg.2.1, hextg]
  · rw [Base_of_join pre g hpre hg.1 hg.2.1]
    exact hneq

theorem generateOutputLoop_candidate (w : World) (input suffix : GoString) :
    ∀ (fuel j : Nat) (stats : List Event) (r : GoString × List Event),
      generateOutputLoop w (Dir input) (TrimSuffix (Base input) (Ext (Base input))) suffix
          (Ext (Base input)) fuel (candidate input suffix j) (counterAt (j + 1)) stats
          = some r →
      ∃ k, r.1 = candidate input suffix k := by
  intro fuel
  induction fuel with
  | zero => intro j stats r h; simp [generateOutputLoop] at h
  | succ f ih =>
    intro j stats r h
    rw [generateOutputLoop] at h
    by_cases hx : w.pathExists (candidate input suffix j) = true
    · simp only [hx, Bool.not_true, Bool.false_eq_true, if_false, counterAt_succ] at h
      exact ih (j + 1) _ r h
    · simp only [Bool.not_eq_true] at hx
      simp only [hx, Bool.not_false, if_true, Option.some.injEq] at h
      exact ⟨j, by rw [← h]⟩

/-- C10. A default output path `generateOutput(input, "_trim")` has the
directory of the input (`Dir`), the extension `ext` that `generateOutput` takes
from the input's base name, which is `Ext(input)` when the input is not empty
and has no trailing separator, and a base name different from the input's; so
it is never the input path itself. -/
theorem default_output_beside_input (w : World) (fuel : Nat) (input out : GoString)
    (stats : List Event)
    (h : generateOutput w fuel input "_trim".toList = some (out, stats)) :
    Dir out = Dir input
      ∧ Ext out = Ext (Base input)
      ∧ (input ≠ [] → input.getLast? ≠ some '/' → Ext out = Ext input)
      ∧ Base out ≠ Base input
      ∧ out ≠ input := by
  obtain ⟨k, hk⟩ : ∃ k, out = candidate input "_trim".toList k := by
    have h1 : counterAt (0 + 1) = 1 := by decide
    have := generateOutputLoop_candidate w input "_trim".toList fuel 0 [] (out, stats)
      (by rw [h1]; simpa [generateOutput, candidate] using h)
    simpa using this
  obtain ⟨hdir, hext, hbase⟩ := candidate_beside_input input k
  rw [hk]
  refine ⟨hdir, hext, fun hne hlast => hext.trans (Ext_Base input hne hlast), hbase, ?_⟩
  intro heq
  exact hbase (by rw [heq])

/-- C10, at a concrete filesystem: for `/videos/clip.mp4` with
`/videos/clip_trim.mp4` present the default output is `/videos/clip_trim1.mp4`. -/
theorem default_output_beside_input_witness :
    Dir "/videos/clip_trim1.mp4".toList = Dir "/videos/clip.mp4".toList
      ∧ Ext "/videos/clip_trim1.mp4".toList = Ext (Base "/videos/clip.mp4".toList)
      ∧ ("/videos/clip.mp4".toList ≠ [] → "/videos/clip.mp4".toList.getLast? ≠ some '/' →
          Ext "/videos/clip_trim1.mp4".toList = Ext "/videos/clip.mp4".toList)
      ∧ Base "/videos/clip_trim1.mp4".toList ≠ Base "/videos/clip.mp4".toList
      ∧ "/videos/clip_trim1.mp4".toList ≠ "/videos/clip.mp4".toList :=
  default_output_beside_input (quietWorld ["/videos/clip_trim.mp4".toList] []) 2
    "/videos/clip.mp4".toList "/videos/clip_trim1.mp4".toList
    [Event.stat "/videos/clip_trim.mp4".toList, Event.stat "/videos/clip_trim1.mp4".toList]
    (by decide)

end Ezff
